import Mathlib

/-!
Shallow embedding of the order-key maintenance core of the grouped
drag-and-drop table (source file `part_000`).  Rows carry an exact
rational order key (`sort`); the core operation `computeNewSorts`
reassigns order keys when a row or a whole group is dragged onto a
target.  All definitions are direct translations of the TypeScript
source; JavaScript's comparator sort is modelled by the structural
`List.insertionSort` (any comparison sort agrees on collections with
pairwise distinct keys), and the string-prefix tagged identifiers
(`"row:<key>"` / `"group:<groupKey>"`) are modelled by the sum type
`DragId`, whose two constructors correspond one-to-one to the two
prefixes tested by `startsWith` in the source.
-/

namespace GroupDragTable

/-- Mirrors the `RowItem` interface of the source: a unique row `key`, the
`groupKey` of the group the row belongs to, the optional `groupSize`
header/rowspan bookkeeping field, opaque payload fields (`category`,
`name`, `count`) and the numeric order key `sort`, modelled as an exact
rational. -/
structure RowItem where
  key : String
  groupKey : String
  groupSize : Option Nat
  category : String
  name : String
  count : Int
  sort : ℚ
deriving DecidableEq, Repr

/-- Comparator used throughout the source: `(a, b) => a.sort - b.sort`. -/
def sortLE (a b : RowItem) : Prop := a.sort ≤ b.sort

instance : DecidableRel sortLE := fun a b => inferInstanceAs (Decidable (a.sort ≤ b.sort))

instance : IsTotal RowItem sortLE := ⟨fun a b => le_total a.sort b.sort⟩

instance : IsTrans RowItem sortLE := ⟨fun _ _ _ h1 h2 => le_trans h1 h2⟩

/-- Model of `arr.sort((a, b) => a.sort - b.sort)`: sort ascending by the
order key. -/
def sortBySort (l : List RowItem) : List RowItem := List.insertionSort sortLE l

/-- The drag identifiers of the source are strings `"row:<rowKey>"` or
`"group:<groupKey>"`; since the two prefixes are mutually exclusive we
model the tagged union directly. -/
inductive DragId where
  | row (k : String)
  | group (gk : String)
deriving DecidableEq, Repr

/-- Seed data of the source (`initialData`): order keys 1..6, partitioned
as group-A = {1,2,3}, group-B = {4,5}, group-C = {6}. -/
def initialData : List RowItem :=
  [ ⟨"1-1", "group-A", some 3, "A", "产品 A1", 10, 1⟩,
    ⟨"1-2", "group-A", none, "A", "产品 A2", 20, 2⟩,
    ⟨"1-3", "group-A", none, "A", "产品 A3", 30, 3⟩,
    ⟨"2-1", "group-B", some 2, "B", "产品 B1", 5, 4⟩,
    ⟨"2-2", "group-B", none, "B", "产品 B2", 15, 5⟩,
    ⟨"3-1", "group-C", some 1, "C", "产品 C1", 40, 6⟩ ]

/-- First-occurrence order of the group keys of `data`; models the
insertion order of the `Map` built by `buildGroups`. -/
def groupKeysAux : List RowItem → List String → List String
  | [], acc => acc
  | r :: rest, acc =>
      groupKeysAux rest (if r.groupKey ∈ acc then acc else acc ++ [r.groupKey])

/-- Keys of the `Map` of `buildGroups`, in insertion (first-occurrence) order. -/
def groupKeys (data : List RowItem) : List String := groupKeysAux data []

/-- One entry of the list returned by `buildGroups`. -/
structure Group where
  groupKey : String
  rows : List RowItem
deriving DecidableEq, Repr

/-- Mirrors `buildGroups`: partition the collection by `groupKey` (in
first-occurrence order, as a JS `Map` iterates) with each group's rows
sorted ascending by order key. -/
def buildGroups (data : List RowItem) : List Group :=
  (groupKeys data).map
    (fun gk => ⟨gk, sortBySort (data.filter (fun r => r.groupKey = gk))⟩)

/-- Mirrors `findPrevSort`: the largest order key of `data` strictly below
`sort`, or `none`.  (The source filters, sorts ascending, and takes the
last element.) -/
def findPrevSort (data : List RowItem) (sort : ℚ) : Option ℚ :=
  (sortBySort (data.filter (fun i => i.sort < sort))).getLast?.map (·.sort)

/-- Mirrors `findNextSort`: the smallest order key of `data` strictly above
`sort`, or `none`.  (The source filters, sorts ascending, and takes the
first element.) -/
def findNextSort (data : List RowItem) (sort : ℚ) : Option ℚ :=
  (sortBySort (data.filter (fun i => i.sort > sort))).head?.map (·.sort)

/-- Mirrors `updateRowSort`: set the order key of the row(s) whose `key`
equals `rowKey` to `newSort`; every other row is returned unchanged. -/
def updateRowSort (data : List RowItem) (rowKey : String) (newSort : ℚ) : List RowItem :=
  data.map (fun r => if r.key = rowKey then { r with sort := newSort } else r)

/-- Recursion underlying `updateGroupSort`: the mutable counter `idx` of the
source (`up + JQ * idx++`) is threaded explicitly; it is incremented once
per row of the group, in list order. -/
def updateGroupSortAux (gk : String) (up JQ : ℚ) : List RowItem → Nat → List RowItem
  | [], _ => []
  | r :: rest, idx =>
      if r.groupKey = gk then
        { r with sort := up + JQ * (idx : ℚ) } :: updateGroupSortAux gk up JQ rest (idx + 1)
      else
        r :: updateGroupSortAux gk up JQ rest idx

/-- Mirrors `updateGroupSort`: the i-th member of the group (1-indexed, in
list order) receives the order key `up + JQ * i`; other rows unchanged. -/
def updateGroupSort (data : List RowItem) (groupKey : String) (up JQ : ℚ) : List RowItem :=
  updateGroupSortAux groupKey up JQ data 1

/-- Model of the object spread `{ ...r }` used to clone each row before the
sorts of the active rows are rewritten. -/
def cloneRow (r : RowItem) : RowItem :=
  ⟨r.key, r.groupKey, r.groupSize, r.category, r.name, r.count, r.sort⟩

/-- Mirrors the inner helper `getSortForId` of `computeNewSorts`: resolve an
identifier to a numeric order key — a row's own key, or (for a group) the
key of its first member, or of its last member when `isTargetingEnd`.
Unresolvable identifiers (no such row / empty group) yield `none`. -/
def getSortForId (sortedData : List RowItem) (id : DragId) (isTargetingEnd : Bool) : Option ℚ :=
  match id with
  | .row k => (sortedData.find? (fun x => x.key = k)).map (·.sort)
  | .group gk =>
      let rows := sortBySort (sortedData.filter (fun x => x.groupKey = gk))
      if isTargetingEnd then rows.getLast?.map (·.sort) else rows.head?.map (·.sort)

/-- Mirrors `computeNewSorts`: given the collection (the source documents it
as sorted ascending by `sort`) and the active/over identifiers, return a
new collection in which only the order keys of the active row — or of
every member of the active group — are changed.  Direction is decided by
comparing the active entity's first-member key with the over entity's
first-member key; the over boundary is then re-resolved to the over
group's last member for down-moves.  Unresolvable identifiers make the
call return its input unchanged.  (The inner `match` on the re-resolved
over key has an unreachable `none` branch — see
`getSortForId_end_isSome`.) -/
def computeNewSorts (sortedData : List RowItem) (activeId overId : DragId) : List RowItem :=
  match getSortForId sortedData activeId false, getSortForId sortedData overId false with
  | none, _ => sortedData
  | some _, none => sortedData
  | some activeSort, some overSortBase =>
      let isUp := activeSort > overSortBase
      let isDown := activeSort < overSortBase
      match getSortForId sortedData overId isDown with
      | none => sortedData
      | some overSort =>
          let newData := sortedData.map cloneRow
          match activeId with
          | .row activeKey =>
              if isUp then
                let down := overSort
                let up := (findPrevSort sortedData down).getD 0
                let newSort := (down - up) / 2 + up
                updateRowSort newData activeKey newSort
              else if isDown then
                let up := overSort
                let maybeNext := findNextSort sortedData up
                let down := maybeNext.getD (up + 2)
                let newSort := up + (down - up) / 2
                updateRowSort newData activeKey newSort
              else newData
          | .group gk =>
              let rows := sortBySort (sortedData.filter (fun r => r.groupKey = gk))
              let rowNum := rows.length
              if isUp then
                let down := overSort
                let up := (findPrevSort sortedData down).getD 0
                let JQ := (down - up) / ((rowNum : ℚ) + 1)
                updateGroupSort newData gk up JQ
              else if isDown then
                let up := overSort
                let maybeNext := findNextSort sortedData up
                let down := maybeNext.getD (up + (rowNum : ℚ) + 1)
                let JQ := (down - up) / ((rowNum : ℚ) + 1)
                updateGroupSort newData gk up JQ
              else newData

/-- Indexed mapping underlying `recomputeGroupSizes`: the JS
`rows.map((r, idx) => ({ ...r, groupSize: idx === 0 ? size : 0 }))`. -/
def stampGroupSizeAux (size : Nat) : List RowItem → Nat → List RowItem
  | [], _ => []
  | r :: rest, idx =>
      { r with groupSize := some (if idx = 0 then size else 0) } ::
        stampGroupSizeAux size rest (idx + 1)

/-- Mirrors `recomputeGroupSizes`: rebuild the groups and give the first
(smallest-key) member of each group a `groupSize` equal to the group's
cardinality, every other member the sentinel `0`. -/
def recomputeGroupSizes (data : List RowItem) : List RowItem :=
  (buildGroups data).flatMap (fun g => stampGroupSizeAux g.rows.length g.rows 0)

/-! ### Specification-level predicates -/

/-- Order keys are pairwise distinct (key-uniqueness invariant of the spec). -/
def UniqueSorts (data : List RowItem) : Prop :=
  data.Pairwise (fun a b => a.sort ≠ b.sort)

instance (data : List RowItem) : Decidable (UniqueSorts data) := by
  unfold UniqueSorts; infer_instance

/-- All order keys are strictly positive. -/
def PosSorts (data : List RowItem) : Prop := ∀ r ∈ data, 0 < r.sort

instance (data : List RowItem) : Decidable (PosSorts data) := by
  unfold PosSorts; infer_instance

/-- Row identifiers are pairwise distinct (the data model's "unique
identifier" attribute of a row). -/
def UniqueKeys (data : List RowItem) : Prop := (data.map (·.key)).Nodup

instance (data : List RowItem) : Decidable (UniqueKeys data) := by
  unfold UniqueKeys; infer_instance

/-- The collection is sorted ascending by order key. -/
def SortedBySort (data : List RowItem) : Prop := data.Pairwise sortLE

instance (data : List RowItem) : Decidable (SortedBySort data) := by
  unfold SortedBySort; infer_instance

/-- Group-contiguity invariant of the spec: for every pair of distinct group
identifiers (quantified through member rows, so that absent groups are
vacuous), every key of one group's members is strictly below every key of
the other group's members, or strictly above. -/
def GroupsSeparated (data : List RowItem) : Prop :=
  ∀ a ∈ data, ∀ b ∈ data, a.groupKey ≠ b.groupKey →
    (∀ c ∈ data, ∀ d ∈ data, c.groupKey = a.groupKey → d.groupKey = b.groupKey →
        c.sort < d.sort) ∨
    (∀ c ∈ data, ∀ d ∈ data, c.groupKey = a.groupKey → d.groupKey = b.groupKey →
        d.sort < c.sort)

instance (data : List RowItem) : Decidable (GroupsSeparated data) := by
  unfold GroupsSeparated; infer_instance

/-- Two rows agree on every field except possibly the order key. -/
def SameExceptSort (a b : RowItem) : Prop :=
  a.key = b.key ∧ a.groupKey = b.groupKey ∧ a.groupSize = b.groupSize ∧
    a.category = b.category ∧ a.name = b.name ∧ a.count = b.count

instance (a b : RowItem) : Decidable (SameExceptSort a b) := by
  unfold SameExceptSort; infer_instance

/-- Two rows agree on every field except possibly the `groupSize`
bookkeeping field. -/
def SameExceptGroupSize (a b : RowItem) : Prop :=
  a.key = b.key ∧ a.groupKey = b.groupKey ∧ a.category = b.category ∧
    a.name = b.name ∧ a.count = b.count ∧ a.sort = b.sort

instance (a b : RowItem) : Decidable (SameExceptGroupSize a b) := by
  unfold SameExceptGroupSize; infer_instance

/-- The rows a move directly involves: the active row itself, or every
member of the active group. -/
def Involved (activeId : DragId) (r : RowItem) : Prop :=
  match activeId with
  | .row k => r.key = k
  | .group gk => r.groupKey = gk

/-- Specification of a block (whole-group) reinsertion of group `gk`
between the resolved boundary keys `u` and `d`, for an output collection
`out`: the output is exactly `updateGroupSort` with step `(d-u)/(n+1)`;
the members of `gk` receive, in list order, the keys `u + i*(d-u)/(n+1)`
for `i = 1..n`; every member's new key lies strictly between `u` and `d`;
the members' identifiers keep their relative positions; and both the old
and the new member key sequences are strictly increasing — so the members'
relative order by ascending old key equals their relative order by
ascending new key. -/
def GroupMoveSpec (data out : List RowItem) (gk : String) (u d : ℚ) : Prop :=
  out = updateGroupSort data gk u
      ((d - u) / (((data.filter (fun r => r.groupKey = gk)).length : ℚ) + 1)) ∧
  (out.filter (fun r => r.groupKey = gk)).map (·.sort)
      = (List.range (data.filter (fun r => r.groupKey = gk)).length).map
          (fun i : Nat => u +
            (d - u) / (((data.filter (fun r => r.groupKey = gk)).length : ℚ) + 1) *
            ((i : ℚ) + 1)) ∧
  (∀ r ∈ out, r.groupKey = gk → u < r.sort ∧ r.sort < d) ∧
  (out.filter (fun r => r.groupKey = gk)).map (·.key)
      = (data.filter (fun r => r.groupKey = gk)).map (·.key) ∧
  ((data.filter (fun r => r.groupKey = gk)).map (·.sort)).Pairwise (· < ·) ∧
  ((out.filter (fun r => r.groupKey = gk)).map (·.sort)).Pairwise (· < ·)

/-- A deliberately unsorted presentation of a two-group collection: the two
group-B rows appear in descending key order, while keys are unique,
positive and the groups are contiguous in key space. -/
def unsortedSeed : List RowItem :=
  [ ⟨"b2", "group-B", none, "B", "产品 B2", 15, 5⟩,
    ⟨"b1", "group-B", some 2, "B", "产品 B1", 5, 4⟩,
    ⟨"a1", "group-A", some 1, "A", "产品 A1", 10, 1⟩ ]

/-! ### Basic lemmas about the sorting helpers -/

theorem cloneRow_eq (r : RowItem) : cloneRow r = r := rfl

theorem map_cloneRow (l : List RowItem) : l.map cloneRow = l := by
  induction l with
  | nil => rfl
  | cons a l ih => simp [cloneRow_eq, ih]

theorem mem_sortBySort {a : RowItem} {l : List RowItem} : a ∈ sortBySort l ↔ a ∈ l :=
  (List.perm_insertionSort sortLE l).mem_iff

theorem sortBySort_pairwise (l : List RowItem) : (sortBySort l).Pairwise sortLE :=
  List.sorted_insertionSort sortLE l

theorem sortBySort_eq_nil {l : List RowItem} : sortBySort l = [] ↔ l = [] := by
  constructor
  · intro h
    have hp : (sortBySort l).Perm l := List.perm_insertionSort sortLE l
    rw [h] at hp
    exact hp.symm.eq_nil
  · intro h; subst h; rfl

/-- The last element of a list sorted ascending by `sort` bounds every
element's `sort` from above. -/
theorem pairwise_getLast_le {l : List RowItem} (hp : l.Pairwise sortLE) {m : RowItem}
    (hm : l.getLast? = some m) : ∀ a ∈ l, a.sort ≤ m.sort := by
  induction l with
  | nil => simp at hm
  | cons x t ih =>
    intro a ha
    cases t with
    | nil =>
      simp at hm ha
      subst hm; subst ha; exact le_refl _
    | cons y u =>
      rw [List.getLast?_cons_cons] at hm
      rcases List.mem_cons.mp ha with rfl | ha'
      · have hmem : m ∈ y :: u := List.mem_of_mem_getLast? hm
        exact (List.pairwise_cons.mp hp).1 m hmem
      · exact ih (List.pairwise_cons.mp hp).2 hm a ha'

/-- The head of a list sorted ascending by `sort` bounds every element's
`sort` from below. -/
theorem pairwise_head_le {l : List RowItem} (hp : l.Pairwise sortLE) {m : RowItem}
    (hm : l.head? = some m) : ∀ a ∈ l, m.sort ≤ a.sort := by
  cases l with
  | nil => simp at hm
  | cons x t =>
    intro a ha
    simp at hm
    subst hm
    rcases List.mem_cons.mp ha with rfl | ha'
    · exact le_refl _
    · exact (List.pairwise_cons.mp hp).1 a ha'

/-- Characterization of `findPrevSort … = some p`: `p` is an order key of a
row, lies strictly below `s`, and is the largest key strictly below `s`. -/
theorem findPrevSort_eq_some {data : List RowItem} {s p : ℚ}
    (h : findPrevSort data s = some p) :
    p < s ∧ (∃ r ∈ data, r.sort = p) ∧ ∀ r ∈ data, r.sort < s → r.sort ≤ p := by
  unfold findPrevSort at h
  rcases Option.map_eq_some'.mp h with ⟨m, hm, hms⟩
  have hmem : m ∈ sortBySort (data.filter (fun i => i.sort < s)) :=
    List.mem_of_mem_getLast? hm
  have hmem' : m ∈ data.filter (fun i => i.sort < s) := mem_sortBySort.mp hmem
  have hmd : m ∈ data := List.mem_of_mem_filter hmem'
  have hlt : m.sort < s := by
    have := (List.mem_filter.mp hmem').2
    simpa using this
  subst hms
  refine ⟨hlt, ⟨m, hmd, rfl⟩, ?_⟩
  intro r hr hrs
  have hrf : r ∈ sortBySort (data.filter (fun i => i.sort < s)) := by
    rw [mem_sortBySort]
    exact List.mem_filter.mpr ⟨hr, by simpa using hrs⟩
  exact pairwise_getLast_le (sortBySort_pairwise _) hm r hrf

/-- When `findPrevSort` finds nothing, no order key lies strictly below `s`. -/
theorem findPrevSort_eq_none {data : List RowItem} {s : ℚ}
    (h : findPrevSort data s = none) : ∀ r ∈ data, ¬ r.sort < s := by
  unfold findPrevSort at h
  rw [Option.map_eq_none'] at h
  rw [List.getLast?_eq_none_iff, sortBySort_eq_nil, List.filter_eq_nil_iff] at h
  intro r hr hrs
  exact h r hr (by simpa using hrs)

/-- Characterization of `findNextSort … = some q`: `q` is an order key of a
row, lies strictly above `s`, and is the smallest key strictly above `s`. -/
theorem findNextSort_eq_some {data : List RowItem} {s q : ℚ}
    (h : findNextSort data s = some q) :
    s < q ∧ (∃ r ∈ data, r.sort = q) ∧ ∀ r ∈ data, s < r.sort → q ≤ r.sort := by
  unfold findNextSort at h
  rcases Option.map_eq_some'.mp h with ⟨m, hm, hms⟩
  have hmem : m ∈ sortBySort (data.filter (fun i => i.sort > s)) := by
    cases hl : sortBySort (data.filter (fun i => i.sort > s)) with
    | nil => rw [hl] at hm; simp at hm
    | cons x t =>
      rw [hl] at hm; simp at hm
      rw [← hm]; exact List.mem_cons_self _ _
  have hmem' : m ∈ data.filter (fun i => i.sort > s) := mem_sortBySort.mp hmem
  have hmd : m ∈ data := List.mem_of_mem_filter hmem'
  have hgt : s < m.sort := by
    have := (List.mem_filter.mp hmem').2
    simpa using this
  subst hms
  refine ⟨hgt, ⟨m, hmd, rfl⟩, ?_⟩
  intro r hr hrs
  have hrf : r ∈ sortBySort (data.filter (fun i => i.sort > s)) := by
    rw [mem_sortBySort]
    exact List.mem_filter.mpr ⟨hr, by simpa using hrs⟩
  exact pairwise_head_le (sortBySort_pairwise _) hm r hrf

/-- When `findNextSort` finds nothing, no order key lies strictly above `s`. -/
theorem findNextSort_eq_none {data : List RowItem} {s : ℚ}
    (h : findNextSort data s = none) : ∀ r ∈ data, ¬ s < r.sort := by
  unfold findNextSort at h
  rw [Option.map_eq_none'] at h
  rw [List.head?_eq_none_iff, sortBySort_eq_nil, List.filter_eq_nil_iff] at h
  intro r hr hrs
  exact h r hr (by simpa using hrs)

/-! ### Characterizations of `getSortForId` -/

theorem getSortForId_row_eq_some {data : List RowItem} {k : String} {b : Bool} {s : ℚ}
    (h : getSortForId data (.row k) b = some s) :
    ∃ r ∈ data, r.key = k ∧ r.sort = s := by
  unfold getSortForId at h
  rcases Option.map_eq_some'.mp h with ⟨r, hr, hrs⟩
  exact ⟨r, List.mem_of_find?_eq_some hr, by simpa using List.find?_some hr, hrs⟩

theorem getSortForId_group_min {data : List RowItem} {gk : String} {s : ℚ}
    (h : getSortForId data (.group gk) false = some s) :
    ∃ m ∈ data, m.groupKey = gk ∧ m.sort = s ∧
      ∀ r ∈ data, r.groupKey = gk → s ≤ r.sort := by
  unfold getSortForId at h
  simp only [Bool.false_eq_true, if_false] at h
  rcases Option.map_eq_some'.mp h with ⟨m, hm, hms⟩
  have hmem : m ∈ sortBySort (data.filter (fun x => x.groupKey = gk)) := by
    cases hl : sortBySort (data.filter (fun x => x.groupKey = gk)) with
    | nil => rw [hl] at hm; simp at hm
    | cons x t =>
      rw [hl] at hm; simp at hm
      rw [← hm]; exact List.mem_cons_self _ _
  have hmem' := mem_sortBySort.mp hmem
  refine ⟨m, List.mem_of_mem_filter hmem', by simpa using (List.mem_filter.mp hmem').2,
    hms, ?_⟩
  intro r hr hrg
  rw [← hms]
  refine pairwise_head_le (sortBySort_pairwise _) hm r ?_
  rw [mem_sortBySort]
  exact List.mem_filter.mpr ⟨hr, by simpa using hrg⟩

theorem getSortForId_group_max {data : List RowItem} {gk : String} {s : ℚ}
    (h : getSortForId data (.group gk) true = some s) :
    ∃ m ∈ data, m.groupKey = gk ∧ m.sort = s ∧
      ∀ r ∈ data, r.groupKey = gk → r.sort ≤ s := by
  unfold getSortForId at h
  simp only [if_true] at h
  rcases Option.map_eq_some'.mp h with ⟨m, hm, hms⟩
  have hmem : m ∈ sortBySort (data.filter (fun x => x.groupKey = gk)) :=
    List.mem_of_mem_getLast? hm
  have hmem' := mem_sortBySort.mp hmem
  refine ⟨m, List.mem_of_mem_filter hmem', by simpa using (List.mem_filter.mp hmem').2,
    hms, ?_⟩
  intro r hr hrg
  rw [← hms]
  refine pairwise_getLast_le (sortBySort_pairwise _) hm r ?_
  rw [mem_sortBySort]
  exact List.mem_filter.mpr ⟨hr, by simpa using hrg⟩

/-- Any resolved identifier key is the order key of some row of the
collection. -/
theorem getSortForId_mem {data : List RowItem} {id : DragId} {b : Bool} {s : ℚ}
    (h : getSortForId data id b = some s) : ∃ r ∈ data, r.sort = s := by
  match id with
  | .row k =>
    rcases getSortForId_row_eq_some h with ⟨r, hr, _, hrs⟩
    exact ⟨r, hr, hrs⟩
  | .group gk =>
    cases b with
    | false =>
      rcases getSortForId_group_min h with ⟨m, hm, _, hms, _⟩
      exact ⟨m, hm, hms⟩
    | true =>
      rcases getSortForId_group_max h with ⟨m, hm, _, hms, _⟩
      exact ⟨m, hm, hms⟩

/-- If an identifier resolves with one end flag it resolves with any other:
the `none` branch of the inner `match` of `computeNewSorts` on the
re-resolved over key is unreachable. -/
theorem getSortForId_end_isSome {data : List RowItem} {id : DragId} {s : ℚ}
    (h : getSortForId data id false = some s) (b : Bool) :
    ∃ s', getSortForId data id b = some s' := by
  match id with
  | .row k => exact ⟨s, h⟩
  | .group gk =>
    cases b with
    | false => exact ⟨s, h⟩
    | true =>
      unfold getSortForId at h ⊢
      simp only [Bool.false_eq_true, if_false] at h
      simp only [if_true]
      cases hl : sortBySort (data.filter (fun x => x.groupKey = gk)) with
      | nil => rw [hl] at h; simp at h
      | cons x t =>
        refine ⟨((x :: t).getLast (by simp)).sort, ?_⟩
        rw [List.getLast?_eq_getLast _ (by simp)]
        rfl

/-! ### Frame lemmas for the update helpers -/

theorem length_sortBySort (l : List RowItem) : (sortBySort l).length = l.length :=
  (List.perm_insertionSort sortLE l).length_eq

/-- `updateRowSort` rewrites the sort of the rows whose key is `rk` and
returns every other row unchanged, positionally. -/
theorem updateRowSort_forall₂ (data : List RowItem) (rk : String) (ns : ℚ) :
    List.Forall₂
      (fun r' r => (r.key = rk ∧ r' = { r with sort := ns }) ∨ (r.key ≠ rk ∧ r' = r))
      (updateRowSort data rk ns) data := by
  induction data with
  | nil => exact List.Forall₂.nil
  | cons a l ih =>
    unfold updateRowSort at ih ⊢
    simp only [List.map_cons]
    refine List.forall₂_cons.mpr ⟨?_, ih⟩
    by_cases h : a.key = rk
    · rw [if_pos h]; exact Or.inl ⟨h, rfl⟩
    · rw [if_neg h]; exact Or.inr ⟨h, rfl⟩

/-- `updateGroupSortAux` rewrites only the sorts of the rows of group `gk`
and returns every other row unchanged, positionally. -/
theorem updateGroupSortAux_forall₂ (gk : String) (up JQ : ℚ) :
    ∀ (l : List RowItem) (idx : Nat),
      List.Forall₂
        (fun r' r => (r.groupKey = gk ∧ SameExceptSort r' r) ∨ (r.groupKey ≠ gk ∧ r' = r))
        (updateGroupSortAux gk up JQ l idx) l := by
  intro l
  induction l with
  | nil => intro _; exact List.Forall₂.nil
  | cons a l ih =>
    intro idx
    unfold updateGroupSortAux
    by_cases h : a.groupKey = gk
    · rw [if_pos h]
      exact List.forall₂_cons.mpr ⟨Or.inl ⟨h, rfl, rfl, rfl, rfl, rfl, rfl⟩, ih _⟩
    · rw [if_neg h]
      exact List.forall₂_cons.mpr ⟨Or.inr ⟨h, rfl⟩, ih _⟩

/-- Master lemma for `updateGroupSortAux`: when the step `JQ` is positive,
the indices still to be assigned fit strictly under `down`
(`JQ * (idx + countP) < down - up + JQ`), and no untouched row's key lies
strictly between `up` and `down`, the rewritten list has pairwise distinct
keys; every rewritten member's key lies strictly between `up` and `down`
and has the form `up + JQ * i` with `i ≥ idx`, and every untouched row is
an element of the input. -/
theorem updateGroupSortAux_unique (gk : String) (up JQ down : ℚ) (hJQ : 0 < JQ) :
    ∀ (l : List RowItem) (idx : Nat), 1 ≤ idx →
      JQ * ((idx : ℚ) + (l.countP (fun r => r.groupKey = gk) : ℚ)) < down - up + JQ →
      (∀ r ∈ l, r.groupKey ≠ gk → ¬ (up < r.sort ∧ r.sort < down)) →
      l.Pairwise (fun a b => a.sort ≠ b.sort) →
      (updateGroupSortAux gk up JQ l idx).Pairwise (fun a b => a.sort ≠ b.sort) ∧
        ∀ r' ∈ updateGroupSortAux gk up JQ l idx,
          (r'.groupKey = gk → up < r'.sort ∧ r'.sort < down ∧
            ∃ i : Nat, idx ≤ i ∧ r'.sort = up + JQ * (i : ℚ)) ∧
          (r'.groupKey ≠ gk → r' ∈ l) := by
  intro l
  induction l with
  | nil =>
    intro idx _ _ _ _
    exact ⟨List.Pairwise.nil, by intro r' hr'; simp [updateGroupSortAux] at hr'⟩
  | cons a l ih =>
    intro idx hidx hbound hout hpw
    have hidxpos : (0 : ℚ) < (idx : ℚ) := by
      have : (1 : ℚ) ≤ (idx : ℚ) := by exact_mod_cast hidx
      linarith
    rcases List.pairwise_cons.mp hpw with ⟨hpwa, hpwl⟩
    by_cases h : a.groupKey = gk
    · have hcount : (a :: l).countP (fun r => r.groupKey = gk)
          = l.countP (fun r => r.groupKey = gk) + 1 := by
        simp [List.countP_cons, h]
      rw [hcount] at hbound
      have hbound' : JQ * (((idx + 1 : Nat) : ℚ) + (l.countP (fun r => r.groupKey = gk) : ℚ))
          < down - up + JQ := by
        push_cast
        push_cast at hbound
        linarith [hbound]
      have hheadlt : up + JQ * (idx : ℚ) < down := by
        have hc : (0 : ℚ) ≤ (l.countP (fun r => r.groupKey = gk) : ℚ) := by positivity
        push_cast at hbound
        nlinarith
      have hheadgt : up < up + JQ * (idx : ℚ) := by nlinarith
      rcases ih (idx + 1) (by omega) hbound' (fun r hr => hout r (List.mem_cons_of_mem a hr))
          hpwl with ⟨ihpw, ihmem⟩
      rw [updateGroupSortAux, if_pos h]
      constructor
      · refine List.pairwise_cons.mpr ⟨?_, ihpw⟩
        intro r'' hr''
        rcases ihmem r'' hr'' with ⟨hmemcase, hnonmem⟩
        by_cases hg : r''.groupKey = gk
        · rcases hmemcase hg with ⟨_, _, i, hi, hform⟩
          simp only
          rw [hform]
          have : (idx : ℚ) < (i : ℚ) := by exact_mod_cast Nat.lt_of_lt_of_le (Nat.lt_succ_self idx) hi
          intro heq
          have : JQ * (idx : ℚ) = JQ * (i : ℚ) := by linarith [heq]
          nlinarith
        · have hrl := hnonmem hg
          have hnotin := hout r'' (List.mem_cons_of_mem a hrl) hg
          simp only
          intro heq
          exact hnotin (by rw [← heq]; exact ⟨hheadgt, hheadlt⟩)
      · intro r' hr'
        rcases List.mem_cons.mp hr' with rfl | hr't
        · constructor
          · intro _
            exact ⟨hheadgt, hheadlt, idx, le_refl idx, rfl⟩
          · intro hg
            exact absurd h hg
        · rcases ihmem r' hr't with ⟨hmemcase, hnonmem⟩
          constructor
          · intro hg
            rcases hmemcase hg with ⟨h1, h2, i, hi, hform⟩
            exact ⟨h1, h2, i, Nat.le_of_succ_le hi, hform⟩
          · intro hg
            exact List.mem_cons_of_mem a (hnonmem hg)
    · have hcount : (a :: l).countP (fun r => r.groupKey = gk)
          = l.countP (fun r => r.groupKey = gk) := by
        simp [List.countP_cons, h]
      rw [hcount] at hbound
      have hbound' : JQ * ((idx : ℚ) + (l.countP (fun r => r.groupKey = gk) : ℚ))
          < down - up + JQ := hbound
      rcases ih idx hidx hbound' (fun r hr => hout r (List.mem_cons_of_mem a hr))
          hpwl with ⟨ihpw, ihmem⟩
      rw [updateGroupSortAux, if_neg h]
      constructor
      · refine List.pairwise_cons.mpr ⟨?_, ihpw⟩
        intro r'' hr''
        rcases ihmem r'' hr'' with ⟨hmemcase, hnonmem⟩
        by_cases hg : r''.groupKey = gk
        · rcases hmemcase hg with ⟨h1, h2, _⟩
          have hnotin := hout a (List.mem_cons_self a l) h
          intro heq
          exact hnotin (by rw [heq]; exact ⟨h1, h2⟩)
        · exact hpwa r'' (hnonmem hg)
      · intro r' hr'
        rcases List.mem_cons.mp hr' with rfl | hr't
        · exact ⟨fun hg => absurd hg h, fun _ => List.mem_cons_self _ _⟩
        · rcases ihmem r' hr't with ⟨hmemcase, hnonmem⟩
          exact ⟨hmemcase, fun hg => List.mem_cons_of_mem a (hnonmem hg)⟩

theorem mem_updateRowSort {l : List RowItem} {rk : String} {m : ℚ} {r' : RowItem}
    (h : r' ∈ updateRowSort l rk m) :
    ∃ r ∈ l, r' = r ∨ r' = { r with sort := m } := by
  unfold updateRowSort at h
  rcases List.mem_map.mp h with ⟨r, hr, hr'⟩
  by_cases hk : r.key = rk
  · rw [if_pos hk] at hr'
    exact ⟨r, hr, Or.inr hr'.symm⟩
  · rw [if_neg hk] at hr'
    exact ⟨r, hr, Or.inl hr'.symm⟩

theorem updateRowSort_of_forall_ne {l : List RowItem} {rk : String} {m : ℚ}
    (h : ∀ r ∈ l, r.key ≠ rk) : updateRowSort l rk m = l := by
  induction l with
  | nil => rfl
  | cons a l ih =>
    unfold updateRowSort at ih ⊢
    simp only [List.map_cons]
    rw [if_neg (h a (List.mem_cons_self _ _)), ih (fun r hr => h r (List.mem_cons_of_mem a hr))]

/-- Rewriting the single row with identifier `rk` to a key not occurring in
the collection preserves pairwise distinctness of order keys. -/
theorem updateRowSort_unique {data : List RowItem} {rk : String} {m : ℚ}
    (hkeys : UniqueKeys data) (huniq : UniqueSorts data)
    (hm : ∀ r ∈ data, r.sort ≠ m) : UniqueSorts (updateRowSort data rk m) := by
  induction data with
  | nil => exact List.Pairwise.nil
  | cons a l ih =>
    unfold UniqueKeys at hkeys
    rw [List.map_cons, List.nodup_cons] at hkeys
    rcases hkeys with ⟨hka, hkl⟩
    rcases List.pairwise_cons.mp huniq with ⟨hua, hul⟩
    unfold updateRowSort
    simp only [List.map_cons]
    by_cases hk : a.key = rk
    · rw [if_pos hk]
      have hnone : ∀ r ∈ l, r.key ≠ rk := by
        intro r hr hrk
        apply hka
        rw [hk, ← hrk]
        exact List.mem_map_of_mem (fun x => x.key) hr
      have hrest : updateRowSort l rk m = l := updateRowSort_of_forall_ne hnone
      unfold updateRowSort at hrest
      rw [hrest]
      refine List.pairwise_cons.mpr ⟨?_, hul⟩
      intro b hb he
      have hbm : b.sort = m := by simpa using he.symm
      exact hm b (List.mem_cons_of_mem a hb) hbm
    · rw [if_neg hk]
      refine List.pairwise_cons.mpr ⟨?_, ?_⟩
      · intro b' hb'
        have hb'' : b' ∈ updateRowSort l rk m := by unfold updateRowSort; exact hb'
        rcases mem_updateRowSort hb'' with ⟨b, hb, heq | heq⟩
        · rw [heq]; exact hua b hb
        · rw [heq]; intro he; exact hm a (List.mem_cons_self _ _) he
      · have := ih hkl hul (fun r hr => hm r (List.mem_cons_of_mem a hr))
        unfold updateRowSort at this
        exact this

/-- The sorts assigned by `updateGroupSortAux` to the members of group `gk`,
in list order: an arithmetic progression with step `JQ` starting at
`up + JQ * idx`. -/
theorem updateGroupSortAux_filter_map_sort (gk : String) (up JQ : ℚ) :
    ∀ (l : List RowItem) (idx : Nat),
      ((updateGroupSortAux gk up JQ l idx).filter (fun r => r.groupKey = gk)).map (·.sort)
        = (List.range (l.countP (fun r => r.groupKey = gk))).map
            (fun i : Nat => up + JQ * ((idx : ℚ) + (i : ℚ))) := by
  intro l
  induction l with
  | nil => intro idx; simp [updateGroupSortAux]
  | cons a l ih =>
    intro idx
    by_cases h : a.groupKey = gk
    · rw [updateGroupSortAux, if_pos h]
      have hc : (a :: l).countP (fun r => r.groupKey = gk)
          = l.countP (fun r => r.groupKey = gk) + 1 := by simp [List.countP_cons, h]
      rw [hc, List.range_succ_eq_map]
      rw [List.filter_cons_of_pos (by simpa using h)]
      simp only [List.map_cons, List.map_map]
      congr 1
      · push_cast; ring
      · rw [ih (idx + 1)]
        apply List.map_congr_left
        intro i _
        simp only [Function.comp_apply]
        push_cast
        ring
    · rw [updateGroupSortAux, if_neg h]
      have hc : (a :: l).countP (fun r => r.groupKey = gk)
          = l.countP (fun r => r.groupKey = gk) := by simp [List.countP_cons, h]
      rw [hc, List.filter_cons_of_neg (by simpa using h)]
      exact ih idx

/-- `updateGroupSortAux` does not change which rows belong to group `gk`,
nor their identifiers or relative positions. -/
theorem updateGroupSortAux_filter_map_key (gk : String) (up JQ : ℚ) :
    ∀ (l : List RowItem) (idx : Nat),
      ((updateGroupSortAux gk up JQ l idx).filter (fun r => r.groupKey = gk)).map (·.key)
        = (l.filter (fun r => r.groupKey = gk)).map (·.key) := by
  intro l
  induction l with
  | nil => intro idx; simp [updateGroupSortAux]
  | cons a l ih =>
    intro idx
    by_cases h : a.groupKey = gk
    · rw [updateGroupSortAux, if_pos h]
      rw [List.filter_cons_of_pos (by simpa using h), List.filter_cons_of_pos (by simpa using h)]
      simp only [List.map_cons]
      rw [ih (idx + 1)]
    · rw [updateGroupSortAux, if_neg h]
      rw [List.filter_cons_of_neg (by simpa using h), List.filter_cons_of_neg (by simpa using h)]
      exact ih idx

/-! ### Case-reduction lemmas for `computeNewSorts` -/

theorem computeNewSorts_guard_active {data : List RowItem} {activeId overId : DragId}
    (h : getSortForId data activeId false = none) :
    computeNewSorts data activeId overId = data := by
  unfold computeNewSorts
  rw [h]

theorem computeNewSorts_guard_over {data : List RowItem} {activeId overId : DragId}
    (h : getSortForId data overId false = none) :
    computeNewSorts data activeId overId = data := by
  unfold computeNewSorts
  cases ha : getSortForId data activeId false with
  | none => rfl
  | some aS => rw [h]

theorem computeNewSorts_of_eq_sorts {data : List RowItem} {activeId overId : DragId} {aS : ℚ}
    (ha : getSortForId data activeId false = some aS)
    (ho : getSortForId data overId false = some aS) :
    computeNewSorts data activeId overId = data := by
  unfold computeNewSorts
  rw [ha, ho]
  have hd : decide (aS < aS) = false := by simp
  simp only [hd, ho]
  cases activeId with
  | row k => simp [lt_irrefl, map_cloneRow]
  | group gk => simp [lt_irrefl, map_cloneRow]

theorem computeNewSorts_row_up {data : List RowItem} {k : String} {overId : DragId} {aS oS : ℚ}
    (ha : getSortForId data (.row k) false = some aS)
    (ho : getSortForId data overId false = some oS)
    (h : oS < aS) :
    computeNewSorts data (.row k) overId
      = updateRowSort data k
          ((oS - (findPrevSort data oS).getD 0) / 2 + (findPrevSort data oS).getD 0) := by
  unfold computeNewSorts
  rw [ha, ho]
  have hd : decide (aS < oS) = false := by simp [not_lt.mpr (le_of_lt h)]
  simp only [hd, ho]
  rw [if_pos h]
  rw [map_cloneRow]

theorem computeNewSorts_row_down {data : List RowItem} {k : String} {overId : DragId}
    {aS oS ov : ℚ}
    (ha : getSortForId data (.row k) false = some aS)
    (ho : getSortForId data overId false = some oS)
    (h : aS < oS)
    (hov : getSortForId data overId true = some ov) :
    computeNewSorts data (.row k) overId
      = updateRowSort data k (ov + ((findNextSort data ov).getD (ov + 2) - ov) / 2) := by
  unfold computeNewSorts
  rw [ha, ho]
  have hd : decide (aS < oS) = true := by simp [h]
  simp only [hd, hov]
  rw [if_neg (by linarith : ¬ aS > oS), if_pos h]
  rw [map_cloneRow]

theorem computeNewSorts_group_up {data : List RowItem} {gk : String} {overId : DragId}
    {aS oS : ℚ}
    (ha : getSortForId data (.group gk) false = some aS)
    (ho : getSortForId data overId false = some oS)
    (h : oS < aS) :
    computeNewSorts data (.group gk) overId
      = updateGroupSort data gk ((findPrevSort data oS).getD 0)
          ((oS - (findPrevSort data oS).getD 0) /
            (((data.filter (fun r => r.groupKey = gk)).length : ℚ) + 1)) := by
  unfold computeNewSorts
  rw [ha, ho]
  have hd : decide (aS < oS) = false := by simp [not_lt.mpr (le_of_lt h)]
  simp only [hd, ho]
  rw [if_pos h]
  rw [map_cloneRow, length_sortBySort]

theorem computeNewSorts_group_down {data : List RowItem} {gk : String} {overId : DragId}
    {aS oS ov : ℚ}
    (ha : getSortForId data (.group gk) false = some aS)
    (ho : getSortForId data overId false = some oS)
    (h : aS < oS)
    (hov : getSortForId data overId true = some ov) :
    computeNewSorts data (.group gk) overId
      = updateGroupSort data gk ov
          (((findNextSort data ov).getD
              (ov + ((data.filter (fun r => r.groupKey = gk)).length : ℚ) + 1) - ov) /
            (((data.filter (fun r => r.groupKey = gk)).length : ℚ) + 1)) := by
  unfold computeNewSorts
  rw [ha, ho]
  have hd : decide (aS < oS) = true := by simp [h]
  simp only [hd, hov]
  rw [if_neg (by linarith : ¬ aS > oS), if_pos h]
  rw [map_cloneRow, length_sortBySort]

/-! ### Gap lemmas: the open interval used for reinsertion contains no key -/

/-- For an up-move boundary `down` that is an existing key of a positive
collection, the interval from the resolved lower bound (predecessor key or
the synthetic `0`) up to `down` is nonempty and free of keys. -/
theorem gap_up {l : List RowItem} {d : ℚ}
    (hpos : PosSorts l) (hmem : ∃ r ∈ l, r.sort = d) :
    (findPrevSort l d).getD 0 < d ∧
      ∀ r ∈ l, ¬ ((findPrevSort l d).getD 0 < r.sort ∧ r.sort < d) := by
  cases hp : findPrevSort l d with
  | none =>
    simp only [Option.getD_none]
    have hnone := findPrevSort_eq_none hp
    rcases hmem with ⟨m, hm, hms⟩
    refine ⟨by rw [← hms]; exact hpos m hm, ?_⟩
    rintro r hr ⟨_, hlt⟩
    exact hnone r hr hlt
  | some p =>
    simp only [Option.getD_some]
    rcases findPrevSort_eq_some hp with ⟨hplt, _, hmax⟩
    exact ⟨hplt, by rintro r hr ⟨h1, h2⟩; exact absurd (hmax r hr h2) (not_le.mpr h1)⟩

/-- For a down-move boundary `up`, the interval from `up` to the resolved
upper bound (successor key or the synthetic default `d > up`) is nonempty
and free of keys. -/
theorem gap_down {l : List RowItem} {u d : ℚ} (hd : u < d) :
    u < (findNextSort l u).getD d ∧
      ∀ r ∈ l, ¬ (u < r.sort ∧ r.sort < (findNextSort l u).getD d) := by
  cases hn : findNextSort l u with
  | none =>
    simp only [Option.getD_none]
    have hnone := findNextSort_eq_none hn
    exact ⟨hd, by rintro r hr ⟨h1, _⟩; exact hnone r hr h1⟩
  | some q =>
    simp only [Option.getD_some]
    rcases findNextSort_eq_some hn with ⟨hqgt, _, hmin⟩
    exact ⟨hqgt, by rintro r hr ⟨h1, h2⟩; exact absurd (hmin r hr h1) (not_le.mpr h2)⟩

/-- A value strictly inside a key-free interval is distinct from every key. -/
theorem ne_of_mem_gap {data : List RowItem} {up down m : ℚ}
    (hgap : ∀ r ∈ data, ¬ (up < r.sort ∧ r.sort < down))
    (h1 : up < m) (h2 : m < down) : ∀ r ∈ data, r.sort ≠ m := by
  intro r hr he
  exact hgap r hr (by rw [he]; exact ⟨h1, h2⟩)

/-! ### Claim theorems -/

/-- C10: `computeNewSorts` never adds, removes or reorders rows and never
changes any field other than the order key `sort`; in particular the
`groupKey` of a moved row is never reassigned.  Stated positionally: the
output is related to the input, row by row, by `SameExceptSort`. -/
theorem computeNewSorts_same_except_sort (data : List RowItem) (activeId overId : DragId) :
    List.Forall₂ SameExceptSort (computeNewSorts data activeId overId) data := by
  have hrefl : ∀ l : List RowItem, List.Forall₂ SameExceptSort l l :=
    fun l => List.forall₂_same.mpr (fun x _ => ⟨rfl, rfl, rfl, rfl, rfl, rfl⟩)
  have hclone : ∀ l : List RowItem, List.Forall₂ SameExceptSort (l.map cloneRow) l := by
    intro l; rw [map_cloneRow]; exact hrefl l
  have hrow : ∀ (l : List RowItem) (k : String) (s : ℚ),
      List.Forall₂ SameExceptSort (updateRowSort l k s) l := by
    intro l k s
    refine (updateRowSort_forall₂ l k s).imp ?_
    rintro r' r (⟨_, rfl⟩ | ⟨_, rfl⟩)
    · exact ⟨rfl, rfl, rfl, rfl, rfl, rfl⟩
    · exact ⟨rfl, rfl, rfl, rfl, rfl, rfl⟩
  have hgrp : ∀ (l : List RowItem) (gk : String) (up JQ : ℚ),
      List.Forall₂ SameExceptSort (updateGroupSort l gk up JQ) l := by
    intro l gk up JQ
    refine (updateGroupSortAux_forall₂ gk up JQ l 1).imp ?_
    rintro r' r (⟨_, hs⟩ | ⟨_, rfl⟩)
    · exact hs
    · exact ⟨rfl, rfl, rfl, rfl, rfl, rfl⟩
  cases ha : getSortForId data activeId false with
  | none => rw [computeNewSorts_guard_active ha]; exact hrefl data
  | some aS =>
    cases ho : getSortForId data overId false with
    | none => rw [computeNewSorts_guard_over ho]; exact hrefl data
    | some oS =>
      rcases lt_trichotomy aS oS with hlt | heq | hgt
      · rcases getSortForId_end_isSome ho true with ⟨ov, hov⟩
        cases activeId with
        | row k => rw [computeNewSorts_row_down ha ho hlt hov]; exact hrow data k _
        | group gk => rw [computeNewSorts_group_down ha ho hlt hov]; exact hgrp data gk _ _
      · subst heq
        rw [computeNewSorts_of_eq_sorts ha ho]
        exact hrefl data
      · cases activeId with
        | row k => rw [computeNewSorts_row_up ha ho hgt]; exact hrow data k _
        | group gk => rw [computeNewSorts_group_up ha ho hgt]; exact hgrp data gk _ _

/-- C7: `computeNewSorts` is a total function that returns its input
collection unchanged whenever the active or over identifier fails to
resolve (stale row key, or empty group), or the two identifiers resolve to
the same representative key — in particular when active and over are the
same entity.  (No exception can be raised: the embedding is a total
function, as is the source, whose only exits in these cases are the
guard returns.) -/
theorem computeNewSorts_noop (data : List RowItem) (activeId overId : DragId)
    (h : getSortForId data activeId false = none ∨ getSortForId data overId false = none ∨
      getSortForId data activeId false = getSortForId data overId false) :
    computeNewSorts data activeId overId = data := by
  rcases h with h | h | h
  · exact computeNewSorts_guard_active h
  · exact computeNewSorts_guard_over h
  · cases ha : getSortForId data activeId false with
    | none => exact computeNewSorts_guard_active ha
    | some aS =>
      rw [ha] at h
      exact computeNewSorts_of_eq_sorts ha h.symm

/-- Witness for C7: dropping a row onto itself, and dragging a stale row
identifier, both leave the seed collection unchanged. -/
theorem computeNewSorts_noop_witness :
    computeNewSorts initialData (.row "1-1") (.row "1-1") = initialData ∧
      computeNewSorts initialData (.row "nope") (.group "group-A") = initialData :=
  ⟨computeNewSorts_noop initialData (.row "1-1") (.row "1-1") (Or.inr (Or.inr rfl)),
   computeNewSorts_noop initialData (.row "nope") (.group "group-A") (Or.inl (by decide))⟩

/-- C9: for a resolvable active/over pair with nonzero direction, the
returned collection differs from the input only in the `sort` field of the
rows directly involved (the moved row, or the members of the moved group);
every uninvolved row is returned exactly as it was. -/
theorem computeNewSorts_frame (data : List RowItem) (activeId overId : DragId) (aS oS : ℚ)
    (ha : getSortForId data activeId false = some aS)
    (ho : getSortForId data overId false = some oS)
    (hne : aS ≠ oS) :
    List.Forall₂ (fun r' r => r' = r ∨ (Involved activeId r ∧ SameExceptSort r' r))
      (computeNewSorts data activeId overId) data := by
  have hrow : ∀ (l : List RowItem) (k : String) (s : ℚ),
      List.Forall₂ (fun r' r => r' = r ∨ (Involved (.row k) r ∧ SameExceptSort r' r))
        (updateRowSort l k s) l := by
    intro l k s
    refine (updateRowSort_forall₂ l k s).imp ?_
    rintro r' r (⟨hk, rfl⟩ | ⟨_, rfl⟩)
    · exact Or.inr ⟨hk, rfl, rfl, rfl, rfl, rfl, rfl⟩
    · exact Or.inl rfl
  have hgrp : ∀ (l : List RowItem) (gk : String) (up JQ : ℚ),
      List.Forall₂ (fun r' r => r' = r ∨ (Involved (.group gk) r ∧ SameExceptSort r' r))
        (updateGroupSort l gk up JQ) l := by
    intro l gk up JQ
    refine (updateGroupSortAux_forall₂ gk up JQ l 1).imp ?_
    rintro r' r (⟨hg, hs⟩ | ⟨_, rfl⟩)
    · exact Or.inr ⟨hg, hs⟩
    · exact Or.inl rfl
  rcases lt_trichotomy aS oS with hlt | heq | hgt
  · rcases getSortForId_end_isSome ho true with ⟨ov, hov⟩
    cases activeId with
    | row k => rw [computeNewSorts_row_down ha ho hlt hov]; exact hrow data k _
    | group gk => rw [computeNewSorts_group_down ha ho hlt hov]; exact hgrp data gk _ _
  · exact absurd heq hne
  · cases activeId with
    | row k => rw [computeNewSorts_row_up ha ho hgt]; exact hrow data k _
    | group gk => rw [computeNewSorts_group_up ha ho hgt]; exact hgrp data gk _ _

/-- Witness for C9: the seed move of row `1-2` onto row `2-1` only rewrites
the sort of the involved row. -/
theorem computeNewSorts_frame_witness :
    List.Forall₂ (fun r' r => r' = r ∨ (Involved (.row "1-2") r ∧ SameExceptSort r' r))
      (computeNewSorts initialData (.row "1-2") (.row "2-1")) initialData :=
  computeNewSorts_frame initialData (.row "1-2") (.row "2-1") 2 4
    (by decide) (by decide) (by decide)

/-- Step arithmetic for the block-reinsertion formula `JQ = (d - u)/(n+1)`:
the step is positive and the invariant of `updateGroupSortAux_unique`
holds at the top-level call (`idx = 1`). -/
theorem group_step_bound {u d : ℚ} (n : ℕ) (hud : u < d) :
    0 < (d - u) / ((n : ℚ) + 1) ∧
      (d - u) / ((n : ℚ) + 1) * ((1 : ℚ) + (n : ℚ)) < d - u + (d - u) / ((n : ℚ) + 1) := by
  have hpos : (0 : ℚ) < (n : ℚ) + 1 := by positivity
  have hq : 0 < (d - u) / ((n : ℚ) + 1) := div_pos (by linarith) hpos
  refine ⟨hq, ?_⟩
  have hne : ((n : ℚ) + 1) ≠ 0 := ne_of_gt hpos
  have he : (d - u) / ((n : ℚ) + 1) * ((1 : ℚ) + (n : ℚ)) = d - u := by
    calc (d - u) / ((n : ℚ) + 1) * ((1 : ℚ) + (n : ℚ))
        = (d - u) / ((n : ℚ) + 1) * ((n : ℚ) + 1) := by ring
      _ = d - u := div_mul_cancel₀ _ hne
  rw [he]
  linarith

/-- C2: on a well-formed collection — sorted ascending, strictly unique and
positive order keys, unique row identifiers (the data model's "unique
identifier" attribute), contiguous groups — `computeNewSorts` preserves
strict uniqueness of the order keys for every active/over identifier
pair, under exact rational arithmetic. -/
theorem computeNewSorts_unique_sorts (data : List RowItem)
    (hsorted : SortedBySort data) (hkeys : UniqueKeys data)
    (huniq : UniqueSorts data) (hpos : PosSorts data) (hsep : GroupsSeparated data)
    (activeId overId : DragId) :
    UniqueSorts (computeNewSorts data activeId overId) := by
  cases ha : getSortForId data activeId false with
  | none => rw [computeNewSorts_guard_active ha]; exact huniq
  | some aS =>
    cases ho : getSortForId data overId false with
    | none => rw [computeNewSorts_guard_over ho]; exact huniq
    | some oS =>
      rcases lt_trichotomy aS oS with hlt | heq | hgt
      · -- down-move
        rcases getSortForId_end_isSome ho true with ⟨ov, hov⟩
        cases activeId with
        | row k =>
          rw [computeNewSorts_row_down ha ho hlt hov]
          have hgap := gap_down (l := data) (u := ov) (d := ov + 2) (by linarith)
          have h1 : ov < ov + ((findNextSort data ov).getD (ov + 2) - ov) / 2 := by
            have := hgap.1; linarith
          have h2 : ov + ((findNextSort data ov).getD (ov + 2) - ov) / 2
              < (findNextSort data ov).getD (ov + 2) := by
            have := hgap.1; linarith
          exact updateRowSort_unique hkeys huniq (ne_of_mem_gap hgap.2 h1 h2)
        | group gk =>
          rw [computeNewSorts_group_down ha ho hlt hov]
          have hd : ov < ov + ((data.filter (fun r => r.groupKey = gk)).length : ℚ) + 1 := by
            have : (0 : ℚ) ≤ ((data.filter (fun r => r.groupKey = gk)).length : ℚ) :=
              Nat.cast_nonneg _
            linarith
          have hgap := gap_down (l := data) (u := ov)
            (d := ov + ((data.filter (fun r => r.groupKey = gk)).length : ℚ) + 1) hd
          have hsb := group_step_bound (u := ov)
            (d := (findNextSort data ov).getD
              (ov + ((data.filter (fun r => r.groupKey = gk)).length : ℚ) + 1))
            ((data.filter (fun r => r.groupKey = gk)).length) hgap.1
          have hbound : ((findNextSort data ov).getD
                (ov + ((data.filter (fun r => r.groupKey = gk)).length : ℚ) + 1) - ov) /
                (((data.filter (fun r => r.groupKey = gk)).length : ℚ) + 1) *
                (((1 : ℕ) : ℚ) + (data.countP (fun r => r.groupKey = gk) : ℚ))
              < (findNextSort data ov).getD
                  (ov + ((data.filter (fun r => r.groupKey = gk)).length : ℚ) + 1) - ov +
                ((findNextSort data ov).getD
                  (ov + ((data.filter (fun r => r.groupKey = gk)).length : ℚ) + 1) - ov) /
                (((data.filter (fun r => r.groupKey = gk)).length : ℚ) + 1) := by
            rw [List.countP_eq_length_filter]
            push_cast
            push_cast at hsb
            exact hsb.2
          exact (updateGroupSortAux_unique gk ov _ _ hsb.1 data 1 (le_refl 1) hbound
            (fun r hr _ => hgap.2 r hr) huniq).1
      · rw [computeNewSorts_of_eq_sorts ha (heq ▸ ho)]
        exact huniq
      · -- up-move
        cases activeId with
        | row k =>
          rw [computeNewSorts_row_up ha ho hgt]
          have hgap := gap_up (d := oS) hpos (getSortForId_mem ho)
          have h1 : (findPrevSort data oS).getD 0
              < (oS - (findPrevSort data oS).getD 0) / 2 + (findPrevSort data oS).getD 0 := by
            have := hgap.1; linarith
          have h2 : (oS - (findPrevSort data oS).getD 0) / 2 + (findPrevSort data oS).getD 0
              < oS := by
            have := hgap.1; linarith
          exact updateRowSort_unique hkeys huniq (ne_of_mem_gap hgap.2 h1 h2)
        | group gk =>
          rw [computeNewSorts_group_up ha ho hgt]
          have hgap := gap_up (d := oS) hpos (getSortForId_mem ho)
          have hsb := group_step_bound (u := (findPrevSort data oS).getD 0) (d := oS)
            ((data.filter (fun r => r.groupKey = gk)).length) hgap.1
          have hbound : (oS - (findPrevSort data oS).getD 0) /
                (((data.filter (fun r => r.groupKey = gk)).length : ℚ) + 1) *
                (((1 : ℕ) : ℚ) + (data.countP (fun r => r.groupKey = gk) : ℚ))
              < oS - (findPrevSort data oS).getD 0 +
                (oS - (findPrevSort data oS).getD 0) /
                (((data.filter (fun r => r.groupKey = gk)).length : ℚ) + 1) := by
            rw [List.countP_eq_length_filter]
            push_cast
            push_cast at hsb
            exact hsb.2
          exact (updateGroupSortAux_unique gk _ _ _ hsb.1 data 1 (le_refl 1) hbound
            (fun r hr _ => hgap.2 r hr) huniq).1

/-- Witness for C2: the seed collection satisfies all well-formedness
hypotheses and the seed row move preserves key uniqueness. -/
theorem computeNewSorts_unique_sorts_witness :
    UniqueSorts (computeNewSorts initialData (.row "1-2") (.row "2-1")) :=
  computeNewSorts_unique_sorts initialData (by decide) (by decide) (by decide)
    (by decide) (by decide) (.row "1-2") (.row "2-1")

/-- With pairwise distinct order keys, a key determines its row. -/
theorem eq_of_uniqueSorts {data : List RowItem} (h : UniqueSorts data)
    {a b : RowItem} (ha : a ∈ data) (hb : b ∈ data) (hs : a.sort = b.sort) : a = b := by
  induction data with
  | nil => simp at ha
  | cons x l ih =>
    rcases List.pairwise_cons.mp h with ⟨hx, hl⟩
    rcases List.mem_cons.mp ha with rfl | ha'
    · rcases List.mem_cons.mp hb with rfl | hb'
      · rfl
      · exact absurd hs (hx b hb')
    · rcases List.mem_cons.mp hb with rfl | hb'
      · exact absurd hs.symm (hx a ha')
      · exact ih hl ha' hb'

/-- When the up-move boundary `v` is the minimal key of the over group `gO`
and the interval `(u, v)` is key-free, every group of a separated
collection lies entirely at or below `u`, or entirely at or above `v` —
the moved block can be inserted into `(u, v)` without splitting any
group. -/
theorem side_dichotomy_up (data : List RowItem) (huniq : UniqueSorts data)
    (hsep : GroupsSeparated data) {gO : String} {o : RowItem}
    (hoin : o ∈ data) (hog : o.groupKey = gO)
    {u v : ℚ} (hos : o.sort = v) (huv : u < v)
    (hmin : ∀ r ∈ data, r.groupKey = gO → v ≤ r.sort)
    (hgap : ∀ r ∈ data, ¬ (u < r.sort ∧ r.sort < v)) (h : String) :
    (∀ r ∈ data, r.groupKey = h → r.sort ≤ u) ∨
      (∀ r ∈ data, r.groupKey = h → v ≤ r.sort) := by
  by_cases hall : ∀ r ∈ data, r.groupKey = h → r.sort ≤ u
  · exact Or.inl hall
  · push_neg at hall
    rcases hall with ⟨r2, hr2, hg2, hgt2⟩
    have h2v : v ≤ r2.sort := by
      by_contra hc
      push_neg at hc
      exact hgap r2 hr2 ⟨hgt2, hc⟩
    right
    intro r1 hr1 hg1
    by_contra hc1
    push_neg at hc1
    have h1u : r1.sort ≤ u := by
      by_contra hc2
      push_neg at hc2
      exact hgap r1 hr1 ⟨hc2, hc1⟩
    by_cases hgO : h = gO
    · exact absurd (hmin r1 hr1 (hg1.trans hgO)) (not_le.mpr (lt_of_le_of_lt h1u huv))
    · have hr2v : v < r2.sort := by
        rcases lt_or_eq_of_le h2v with hlt | heqv
        · exact hlt
        · exfalso
          have hro : r2 = o := eq_of_uniqueSorts huniq hr2 hoin (by rw [← heqv, hos])
          rw [hro] at hg2
          exact hgO ((hg2.symm.trans hog).symm ▸ rfl)
      have hne : r1.groupKey ≠ o.groupKey := by
        rw [hg1, hog]; exact hgO
      rcases hsep r1 hr1 o hoin hne with hL | hR
      · have := hL r2 hr2 o hoin (hg2.trans hg1.symm) rfl
        rw [hos] at this
        exact absurd this (not_lt.mpr (le_of_lt hr2v))
      · have := hR r1 hr1 o hoin rfl rfl
        rw [hos] at this
        exact absurd this (not_lt.mpr (le_trans h1u (le_of_lt huv)))

/-- When the down-move boundary `u` is the maximal key of the over group
`gO` and the interval `(u, v)` is key-free, every group of a separated
collection lies entirely at or below `u`, or entirely at or above `v`. -/
theorem side_dichotomy_down (data : List RowItem) (huniq : UniqueSorts data)
    (hsep : GroupsSeparated data) {gO : String} {o : RowItem}
    (hoin : o ∈ data) (hog : o.groupKey = gO)
    {u v : ℚ} (hos : o.sort = u) (huv : u < v)
    (hmax : ∀ r ∈ data, r.groupKey = gO → r.sort ≤ u)
    (hgap : ∀ r ∈ data, ¬ (u < r.sort ∧ r.sort < v)) (h : String) :
    (∀ r ∈ data, r.groupKey = h → r.sort ≤ u) ∨
      (∀ r ∈ data, r.groupKey = h → v ≤ r.sort) := by
  by_cases hall : ∀ r ∈ data, r.groupKey = h → v ≤ r.sort
  · exact Or.inr hall
  · push_neg at hall
    rcases hall with ⟨r2, hr2, hg2, hlt2⟩
    have h2u : r2.sort ≤ u := by
      by_contra hc
      push_neg at hc
      exact hgap r2 hr2 ⟨hc, hlt2⟩
    left
    intro r1 hr1 hg1
    by_contra hc1
    push_neg at hc1
    have h1v : v ≤ r1.sort := by
      by_contra hc2
      push_neg at hc2
      exact hgap r1 hr1 ⟨hc1, hc2⟩
    by_cases hgO : h = gO
    · exact absurd (hmax r1 hr1 (hg1.trans hgO)) (not_le.mpr hc1)
    · have hr2u : r2.sort < u := by
        rcases lt_or_eq_of_le h2u with hlt | heqv
        · exact hlt
        · exfalso
          have hro : r2 = o := eq_of_uniqueSorts huniq hr2 hoin (by rw [heqv, hos])
          rw [hro] at hg2
          exact hgO ((hg2.symm.trans hog).symm ▸ rfl)
      have hne : r1.groupKey ≠ o.groupKey := by
        rw [hg1, hog]; exact hgO
      rcases hsep r1 hr1 o hoin hne with hL | hR
      · have := hL r1 hr1 o hoin rfl rfl
        rw [hos] at this
        exact absurd this (not_lt.mpr (le_of_lt hc1))
      · have := hR r2 hr2 o hoin (hg2.trans hg1.symm) rfl
        rw [hos] at this
        exact absurd this (not_lt.mpr (le_of_lt hr2u))

/-- Core of the group-contiguity argument: if the rewritten members of
group `gA` all received keys strictly inside `(u, v)`, every untouched row
is an input row, and every other group of the (separated) input lies
entirely on one side of the interval, then the updated collection is
separated. -/
theorem separated_after_update (data : List RowItem) (gA : String) (u v JQ : ℚ)
    (hsep : GroupsSeparated data)
    (haux : ∀ r' ∈ updateGroupSort data gA u JQ,
      (r'.groupKey = gA → u < r'.sort ∧ r'.sort < v) ∧ (r'.groupKey ≠ gA → r' ∈ data))
    (hdich : ∀ h : String,
      (∀ r ∈ data, r.groupKey = h → r.sort ≤ u) ∨ (∀ r ∈ data, r.groupKey = h → v ≤ r.sort)) :
    GroupsSeparated (updateGroupSort data gA u JQ) := by
  intro a hain b hbin hab
  by_cases hagA : a.groupKey = gA
  · have hbgA : b.groupKey ≠ gA := fun he => hab (hagA.trans he.symm)
    rcases hdich b.groupKey with hle | hge
    · right
      intro c hc d hd hcg hdg
      have hcb := (haux c hc).1 (hcg.trans hagA)
      have hdb : d ∈ data := (haux d hd).2 (by rw [hdg]; exact hbgA)
      exact lt_of_le_of_lt (hle d hdb hdg) hcb.1
    · left
      intro c hc d hd hcg hdg
      have hcb := (haux c hc).1 (hcg.trans hagA)
      have hdb : d ∈ data := (haux d hd).2 (by rw [hdg]; exact hbgA)
      exact lt_of_lt_of_le hcb.2 (hge d hdb hdg)
  · by_cases hbgA : b.groupKey = gA
    · rcases hdich a.groupKey with hle | hge
      · left
        intro c hc d hd hcg hdg
        have hdb := (haux d hd).1 (hdg.trans hbgA)
        have hcb : c ∈ data := (haux c hc).2 (by rw [hcg]; exact hagA)
        exact lt_of_le_of_lt (hle c hcb hcg) hdb.1
      · right
        intro c hc d hd hcg hdg
        have hdb := (haux d hd).1 (hdg.trans hbgA)
        have hcb : c ∈ data := (haux c hc).2 (by rw [hcg]; exact hagA)
        exact lt_of_lt_of_le hdb.2 (hge c hcb hcg)
    · have hain' : a ∈ data := (haux a hain).2 hagA
      have hbin' : b ∈ data := (haux b hbin).2 hbgA
      rcases hsep a hain' b hbin' hab with hL | hR
      · left
        intro c hc d hd hcg hdg
        exact hL c ((haux c hc).2 (by rw [hcg]; exact hagA))
          d ((haux d hd).2 (by rw [hdg]; exact hbgA)) hcg hdg
      · right
        intro c hc d hd hcg hdg
        exact hR c ((haux c hc).2 (by rw [hcg]; exact hagA))
          d ((haux d hd).2 (by rw [hdg]; exact hbgA)) hcg hdg

/-- C1 (amended): on a collection with strictly unique, positive order keys
and pairwise non-interleaved group key ranges, a whole-group move onto a
group target (both identifiers group identifiers) preserves
non-interleaving, for every such pair — including unresolvable or
same-representative pairs, which are no-ops.  (The unamended claim, which
also asserts this for single-row moves into the interior of another
group, is refuted by `computeNewSorts_row_breaks_separation`: a moved
row's `groupKey` is never reassigned, so its new key lands inside the
target group's range while its siblings stay behind.) -/
theorem computeNewSorts_groups_separated (data : List RowItem)
    (huniq : UniqueSorts data) (hpos : PosSorts data) (hsep : GroupsSeparated data)
    (gA gO : String) :
    GroupsSeparated (computeNewSorts data (.group gA) (.group gO)) := by
  cases ha : getSortForId data (.group gA) false with
  | none => rw [computeNewSorts_guard_active ha]; exact hsep
  | some aS =>
    cases ho : getSortForId data (.group gO) false with
    | none => rw [computeNewSorts_guard_over ho]; exact hsep
    | some oS =>
      rcases lt_trichotomy aS oS with hlt | heq | hgt
      · rcases getSortForId_end_isSome ho true with ⟨ov, hov⟩
        rw [computeNewSorts_group_down ha ho hlt hov]
        rcases getSortForId_group_max hov with ⟨o, hoin, hog, hos, hmax⟩
        have hd : ov < ov + ((data.filter (fun r => r.groupKey = gA)).length : ℚ) + 1 := by
          have h0 : (0 : ℚ) ≤ ((data.filter (fun r => r.groupKey = gA)).length : ℚ) :=
            Nat.cast_nonneg _
          linarith
        have hgap := gap_down (l := data) (u := ov)
          (d := ov + ((data.filter (fun r => r.groupKey = gA)).length : ℚ) + 1) hd
        have hsb := group_step_bound (u := ov)
          (d := (findNextSort data ov).getD
            (ov + ((data.filter (fun r => r.groupKey = gA)).length : ℚ) + 1))
          ((data.filter (fun r => r.groupKey = gA)).length) hgap.1
        have hbound : ((findNextSort data ov).getD
              (ov + ((data.filter (fun r => r.groupKey = gA)).length : ℚ) + 1) - ov) /
              (((data.filter (fun r => r.groupKey = gA)).length : ℚ) + 1) *
              (((1 : ℕ) : ℚ) + (data.countP (fun r => r.groupKey = gA) : ℚ))
            < (findNextSort data ov).getD
                (ov + ((data.filter (fun r => r.groupKey = gA)).length : ℚ) + 1) - ov +
              ((findNextSort data ov).getD
                (ov + ((data.filter (fun r => r.groupKey = gA)).length : ℚ) + 1) - ov) /
              (((data.filter (fun r => r.groupKey = gA)).length : ℚ) + 1) := by
          rw [List.countP_eq_length_filter]
          push_cast
          push_cast at hsb
          exact hsb.2
        have haux := (updateGroupSortAux_unique gA ov _ _ hsb.1 data 1 (le_refl 1) hbound
          (fun r hr _ => hgap.2 r hr) huniq).2
        refine separated_after_update data gA ov
          ((findNextSort data ov).getD
            (ov + ((data.filter (fun r => r.groupKey = gA)).length : ℚ) + 1)) _ hsep ?_ ?_
        · intro r' hr'
          rcases haux r' hr' with ⟨hm, hn⟩
          exact ⟨fun hg => ⟨(hm hg).1, (hm hg).2.1⟩, hn⟩
        · intro h
          exact side_dichotomy_down data huniq hsep hoin hog hos hgap.1 hmax hgap.2 h
      · rw [computeNewSorts_of_eq_sorts ha (heq ▸ ho)]
        exact hsep
      · rw [computeNewSorts_group_up ha ho hgt]
        rcases getSortForId_group_min ho with ⟨o, hoin, hog, hos, hmin⟩
        have hgap := gap_up (d := oS) hpos (getSortForId_mem ho)
        have hsb := group_step_bound (u := (findPrevSort data oS).getD 0) (d := oS)
          ((data.filter (fun r => r.groupKey = gA)).length) hgap.1
        have hbound : (oS - (findPrevSort data oS).getD 0) /
              (((data.filter (fun r => r.groupKey = gA)).length : ℚ) + 1) *
              (((1 : ℕ) : ℚ) + (data.countP (fun r => r.groupKey = gA) : ℚ))
            < oS - (findPrevSort data oS).getD 0 +
              (oS - (findPrevSort data oS).getD 0) /
              (((data.filter (fun r => r.groupKey = gA)).length : ℚ) + 1) := by
          rw [List.countP_eq_length_filter]
          push_cast
          push_cast at hsb
          exact hsb.2
        have haux := (updateGroupSortAux_unique gA _ _ oS hsb.1 data 1 (le_refl 1) hbound
          (fun r hr _ => hgap.2 r hr) huniq).2
        refine separated_after_update data gA ((findPrevSort data oS).getD 0) oS _ hsep ?_ ?_
        · intro r' hr'
          rcases haux r' hr' with ⟨hm, hn⟩
          exact ⟨fun hg => ⟨(hm hg).1, (hm hg).2.1⟩, hn⟩
        · intro h
          exact side_dichotomy_up data huniq hsep hoin hog hos hgap.1 hmin hgap.2 h

/-- Witness for the amended C1: moving group-B before group-A on the seed
collection keeps the groups non-interleaved. -/
theorem computeNewSorts_groups_separated_witness :
    GroupsSeparated (computeNewSorts initialData (.group "group-B") (.group "group-A")) :=
  computeNewSorts_groups_separated initialData (by decide) (by decide) (by decide)
    "group-B" "group-A"

theorem mem_updateRowSort_of_ne {l : List RowItem} {rk : String} {m : ℚ} {r : RowItem}
    (hr : r ∈ l) (hk : r.key ≠ rk) : r ∈ updateRowSort l rk m := by
  unfold updateRowSort
  exact List.mem_map.mpr ⟨r, hr, by simp [hk]⟩

/-- C5: single-row reinsertion.  Down-move onto a target `T` with successor
key `s`: the moved row receives exactly the midpoint `T.sort + (s -
T.sort)/2`, strictly between the two, and every other row is left in
place.  Up-move onto a target `T`: the moved row receives the midpoint of
`T.sort` and its predecessor key (the synthetic `0` when no predecessor
exists), again strictly between the two bounds. -/
theorem computeNewSorts_row_reinsertion (data : List RowItem)
    (huniq : UniqueSorts data) (hpos : PosSorts data)
    (rk tk : String) (R T : RowItem)
    (hR : data.find? (fun x => x.key = rk) = some R)
    (hT : data.find? (fun x => x.key = tk) = some T) :
    (R.sort < T.sort → ∀ s : ℚ, findNextSort data T.sort = some s →
      computeNewSorts data (.row rk) (.row tk)
          = updateRowSort data rk (T.sort + (s - T.sort) / 2) ∧
        T.sort < T.sort + (s - T.sort) / 2 ∧ T.sort + (s - T.sort) / 2 < s ∧
        ∀ r ∈ data, r.key ≠ rk → r ∈ computeNewSorts data (.row rk) (.row tk)) ∧
    (T.sort < R.sort →
      computeNewSorts data (.row rk) (.row tk)
          = updateRowSort data rk
              ((T.sort - (findPrevSort data T.sort).getD 0) / 2 +
                (findPrevSort data T.sort).getD 0) ∧
        (findPrevSort data T.sort).getD 0
            < (T.sort - (findPrevSort data T.sort).getD 0) / 2 +
              (findPrevSort data T.sort).getD 0 ∧
        (T.sort - (findPrevSort data T.sort).getD 0) / 2 +
            (findPrevSort data T.sort).getD 0 < T.sort ∧
        ∀ r ∈ data, r.key ≠ rk → r ∈ computeNewSorts data (.row rk) (.row tk)) := by
  have ha : getSortForId data (.row rk) false = some R.sort := by
    simp [getSortForId, hR]
  have ho : getSortForId data (.row tk) false = some T.sort := by
    simp [getSortForId, hT]
  have ho' : getSortForId data (.row tk) true = some T.sort := by
    simp [getSortForId, hT]
  constructor
  · intro hlt s hs
    have heq : computeNewSorts data (.row rk) (.row tk)
        = updateRowSort data rk (T.sort + (s - T.sort) / 2) := by
      rw [computeNewSorts_row_down ha ho hlt ho', hs]
      rfl
    rcases findNextSort_eq_some hs with ⟨hTs, _, _⟩
    refine ⟨heq, by linarith, by linarith, ?_⟩
    intro r hr hk
    rw [heq]
    exact mem_updateRowSort_of_ne hr hk
  · intro hgt
    have heq : computeNewSorts data (.row rk) (.row tk)
        = updateRowSort data rk
            ((T.sort - (findPrevSort data T.sort).getD 0) / 2 +
              (findPrevSort data T.sort).getD 0) :=
      computeNewSorts_row_up ha ho hgt
    have hgap := gap_up (d := T.sort) hpos ⟨T, List.mem_of_find?_eq_some hT, rfl⟩
    refine ⟨heq, ?_, ?_, ?_⟩
    · have := hgap.1; linarith
    · have := hgap.1; linarith
    · intro r hr hk
      rw [heq]
      exact mem_updateRowSort_of_ne hr hk

/-- Witness for C5: the seed down-move of row `1-2` onto row `2-1` (whose
successor key is `5`) assigns the midpoint `4 + (5 - 4)/2`. -/
theorem computeNewSorts_row_reinsertion_witness :
    computeNewSorts initialData (.row "1-2") (.row "2-1")
        = updateRowSort initialData "1-2" ((4 : ℚ) + (5 - 4) / 2) ∧
      (4 : ℚ) < 4 + (5 - 4) / 2 ∧ (4 : ℚ) + (5 - 4) / 2 < 5 ∧
      ∀ r ∈ initialData, r.key ≠ "1-2" →
        r ∈ computeNewSorts initialData (.row "1-2") (.row "2-1") := by
  have h := (computeNewSorts_row_reinsertion initialData (by decide) (by decide)
    "1-2" "2-1" ⟨"1-2", "group-A", none, "A", "产品 A2", 20, 2⟩
    ⟨"2-1", "group-B", some 2, "B", "产品 B1", 5, 4⟩
    (by decide) (by decide)).1 (by norm_num) 5 (by decide)
  exact h

/-- Counterexample for C3 as stated: after the seed move of the row with
key 2 onto the row with key 4, the moved row's `groupKey` is still
`group-A` — it is not reassigned to the target row's group `group-B`
(`updateRowSort` rewrites only the `sort` field). -/
theorem computeNewSorts_no_groupKey_reassign :
    ((computeNewSorts initialData (.row "1-2") (.row "2-1")).find?
        (fun r => r.key = "1-2")).map (·.groupKey) = some "group-A" ∧
      ("group-A" : String) ≠ "group-B" ∧
      ((initialData.find? (fun r => r.key = "2-1")).map (·.groupKey) = some "group-B") := by
  refine ⟨?_, by decide, by decide⟩
  have e : (4 : ℚ) + (5 - 4) / 2 = 9 / 2 := by norm_num
  have hres : computeNewSorts initialData (.row "1-2") (.row "2-1")
      = updateRowSort initialData "1-2" (9 / 2) := by
    calc computeNewSorts initialData (.row "1-2") (.row "2-1")
        = updateRowSort initialData "1-2" (4 + (5 - 4) / 2) := rfl
      _ = updateRowSort initialData "1-2" (9 / 2) := by rw [e]
  rw [hres]
  decide

/-- C3 (amended): the seed move of the row with key 2 onto the row with
key 4 assigns the moved row the key `9/2`, strictly between 4 and 5,
leaves every other row's key unchanged — and leaves the moved row's
`groupKey` unchanged (still `group-A`); `computeNewSorts` never
reassigns group membership. -/
theorem computeNewSorts_row_midpoint_seed :
    computeNewSorts initialData (.row "1-2") (.row "2-1")
      = [ ⟨"1-1", "group-A", some 3, "A", "产品 A1", 10, 1⟩,
          ⟨"1-2", "group-A", none, "A", "产品 A2", 20, 9/2⟩,
          ⟨"1-3", "group-A", none, "A", "产品 A3", 30, 3⟩,
          ⟨"2-1", "group-B", some 2, "B", "产品 B1", 5, 4⟩,
          ⟨"2-2", "group-B", none, "B", "产品 B2", 15, 5⟩,
          ⟨"3-1", "group-C", some 1, "C", "产品 C1", 40, 6⟩ ] ∧
      (4 : ℚ) < 9/2 ∧ (9/2 : ℚ) < 5 := by
  refine ⟨?_, by norm_num, by norm_num⟩
  have e : (4 : ℚ) + (5 - 4) / 2 = 9 / 2 := by norm_num
  calc computeNewSorts initialData (.row "1-2") (.row "2-1")
      = updateRowSort initialData "1-2" (4 + (5 - 4) / 2) := rfl
    _ = updateRowSort initialData "1-2" (9 / 2) := by rw [e]
    _ = _ := rfl

/-- C6: moving whole group-B before group-A on the seed collection (an
up-move whose boundary has no predecessor, so the synthetic lower bound
`0` is used) assigns group-B's two members the keys `1/3` and `2/3`, in
their original relative order, and leaves every key of group-A and
group-C unchanged. -/
theorem computeNewSorts_group_move_seed :
    computeNewSorts initialData (.group "group-B") (.group "group-A")
      = [ ⟨"1-1", "group-A", some 3, "A", "产品 A1", 10, 1⟩,
          ⟨"1-2", "group-A", none, "A", "产品 A2", 20, 2⟩,
          ⟨"1-3", "group-A", none, "A", "产品 A3", 30, 3⟩,
          ⟨"2-1", "group-B", some 2, "B", "产品 B1", 5, 1/3⟩,
          ⟨"2-2", "group-B", none, "B", "产品 B2", 15, 2/3⟩,
          ⟨"3-1", "group-C", some 1, "C", "产品 C1", 40, 6⟩ ] ∧
      (0 : ℚ) < 1/3 ∧ (1/3 : ℚ) < 2/3 ∧ (2/3 : ℚ) < 1 := by
  refine ⟨?_, by norm_num, by norm_num, by norm_num⟩
  have e1 : (0 : ℚ) + (1 - 0) / (2 + 1) * ((1 : ℕ) : ℚ) = 1/3 := by push_cast; norm_num
  have e2 : (0 : ℚ) + (1 - 0) / (2 + 1) * ((2 : ℕ) : ℚ) = 2/3 := by push_cast; norm_num
  calc computeNewSorts initialData (.group "group-B") (.group "group-A")
      = [ ⟨"1-1", "group-A", some 3, "A", "产品 A1", 10, 1⟩,
          ⟨"1-2", "group-A", none, "A", "产品 A2", 20, 2⟩,
          ⟨"1-3", "group-A", none, "A", "产品 A3", 30, 3⟩,
          ⟨"2-1", "group-B", some 2, "B", "产品 B1", 5,
            0 + (1 - 0) / (2 + 1) * ((1 : ℕ) : ℚ)⟩,
          ⟨"2-2", "group-B", none, "B", "产品 B2", 15,
            0 + (1 - 0) / (2 + 1) * ((2 : ℕ) : ℚ)⟩,
          ⟨"3-1", "group-C", some 1, "C", "产品 C1", 40, 6⟩ ] := rfl
    _ = _ := by rw [e1, e2]

/-- Counterexample for C1 as stated: the seed collection satisfies every
hypothesis of the claim (unique positive keys, non-interleaved groups)
and the pair row 1-2 / row 2-1 resolves, yet the returned collection is
not group-separated: the moved row keeps `groupKey` `group-A` while its
new key `9/2` lies strictly between group-B's keys 4 and 5. -/
theorem computeNewSorts_row_breaks_separation :
    UniqueSorts initialData ∧ PosSorts initialData ∧ GroupsSeparated initialData ∧
      getSortForId initialData (.row "1-2") false = some 2 ∧
      getSortForId initialData (.row "2-1") false = some 4 ∧
      ¬ GroupsSeparated (computeNewSorts initialData (.row "1-2") (.row "2-1")) := by
  refine ⟨by decide, by decide, by decide, by decide, by decide, ?_⟩
  intro hsep
  have e : (4 : ℚ) + (5 - 4) / 2 = 9 / 2 := by norm_num
  have hres : computeNewSorts initialData (.row "1-2") (.row "2-1")
      = [ ⟨"1-1", "group-A", some 3, "A", "产品 A1", 10, 1⟩,
          ⟨"1-2", "group-A", none, "A", "产品 A2", 20, 9/2⟩,
          ⟨"1-3", "group-A", none, "A", "产品 A3", 30, 3⟩,
          ⟨"2-1", "group-B", some 2, "B", "产品 B1", 5, 4⟩,
          ⟨"2-2", "group-B", none, "B", "产品 B2", 15, 5⟩,
          ⟨"3-1", "group-C", some 1, "C", "产品 C1", 40, 6⟩ ] := by
    calc computeNewSorts initialData (.row "1-2") (.row "2-1")
        = updateRowSort initialData "1-2" (4 + (5 - 4) / 2) := rfl
      _ = updateRowSort initialData "1-2" (9 / 2) := by rw [e]
      _ = _ := rfl
  rw [hres] at hsep
  have h1 : (⟨"1-1", "group-A", some 3, "A", "产品 A1", 10, 1⟩ : RowItem)
      ∈ [ (⟨"1-1", "group-A", some 3, "A", "产品 A1", 10, 1⟩ : RowItem),
          ⟨"1-2", "group-A", none, "A", "产品 A2", 20, 9/2⟩,
          ⟨"1-3", "group-A", none, "A", "产品 A3", 30, 3⟩,
          ⟨"2-1", "group-B", some 2, "B", "产品 B1", 5, 4⟩,
          ⟨"2-2", "group-B", none, "B", "产品 B2", 15, 5⟩,
          ⟨"3-1", "group-C", some 1, "C", "产品 C1", 40, 6⟩ ] :=
    List.mem_cons_self _ _
  have h2 : (⟨"1-2", "group-A", none, "A", "产品 A2", 20, 9/2⟩ : RowItem)
      ∈ [ (⟨"1-1", "group-A", some 3, "A", "产品 A1", 10, 1⟩ : RowItem),
          ⟨"1-2", "group-A", none, "A", "产品 A2", 20, 9/2⟩,
          ⟨"1-3", "group-A", none, "A", "产品 A3", 30, 3⟩,
          ⟨"2-1", "group-B", some 2, "B", "产品 B1", 5, 4⟩,
          ⟨"2-2", "group-B", none, "B", "产品 B2", 15, 5⟩,
          ⟨"3-1", "group-C", some 1, "C", "产品 C1", 40, 6⟩ ] :=
    List.mem_cons_of_mem _ (List.mem_cons_self _ _)
  have h4 : (⟨"2-1", "group-B", some 2, "B", "产品 B1", 5, 4⟩ : RowItem)
      ∈ [ (⟨"1-1", "group-A", some 3, "A", "产品 A1", 10, 1⟩ : RowItem),
          ⟨"1-2", "group-A", none, "A", "产品 A2", 20, 9/2⟩,
          ⟨"1-3", "group-A", none, "A", "产品 A3", 30, 3⟩,
          ⟨"2-1", "group-B", some 2, "B", "产品 B1", 5, 4⟩,
          ⟨"2-2", "group-B", none, "B", "产品 B2", 15, 5⟩,
          ⟨"3-1", "group-C", some 1, "C", "产品 C1", 40, 6⟩ ] :=
    List.mem_cons_of_mem _ (List.mem_cons_of_mem _ (List.mem_cons_of_mem _
      (List.mem_cons_self _ _)))
  rcases hsep _ h2 _ h4 (by decide) with hL | hR
  · have := hL _ h2 _ h4 rfl rfl
    norm_num at this
  · have := hR _ h1 _ h4 rfl rfl
    norm_num at this

/-- Counterexample for C4 as stated: on a collection satisfying all of the
claim's hypotheses (unique positive keys, contiguous groups, resolvable
group/group pair, nonzero direction) but presented unsorted — group-B's
members appear in descending key order — `updateGroupSort` assigns the
keys `1/3, 2/3` in list order, so the member with the larger old key (5)
receives the smaller new key: the members' relative order by ascending
old key (`b1` before `b2`) is not the relative order by ascending new
key (`b2` before `b1`). -/
theorem updateGroupSort_not_order_preserving_unsorted :
    UniqueSorts unsortedSeed ∧ PosSorts unsortedSeed ∧ GroupsSeparated unsortedSeed ∧
      getSortForId unsortedSeed (.group "group-B") false = some 4 ∧
      getSortForId unsortedSeed (.group "group-A") false = some 1 ∧
      computeNewSorts unsortedSeed (.group "group-B") (.group "group-A")
        = [ ⟨"b2", "group-B", none, "B", "产品 B2", 15, 1/3⟩,
            ⟨"b1", "group-B", some 2, "B", "产品 B1", 5, 2/3⟩,
            ⟨"a1", "group-A", some 1, "A", "产品 A1", 10, 1⟩ ] ∧
      (4 : ℚ) < 5 ∧ (1/3 : ℚ) < 2/3 := by
  refine ⟨by decide, by decide, by decide, by decide, by decide, ?_, by norm_num, by norm_num⟩
  have e1 : (0 : ℚ) + (1 - 0) / (2 + 1) * ((1 : ℕ) : ℚ) = 1/3 := by push_cast; norm_num
  have e2 : (0 : ℚ) + (1 - 0) / (2 + 1) * ((2 : ℕ) : ℚ) = 2/3 := by push_cast; norm_num
  calc computeNewSorts unsortedSeed (.group "group-B") (.group "group-A")
      = [ ⟨"b2", "group-B", none, "B", "产品 B2", 15,
            0 + (1 - 0) / (2 + 1) * ((1 : ℕ) : ℚ)⟩,
          ⟨"b1", "group-B", some 2, "B", "产品 B1", 5,
            0 + (1 - 0) / (2 + 1) * ((2 : ℕ) : ℚ)⟩,
          ⟨"a1", "group-A", some 1, "A", "产品 A1", 10, 1⟩ ] := rfl
    _ = _ := by rw [e1, e2]

theorem filter_sorts_strict (data : List RowItem) (hsorted : SortedBySort data)
    (huniq : UniqueSorts data) (p : RowItem → Bool) :
    ((data.filter p).map (·.sort)).Pairwise (· < ·) := by
  have h1 : (data.filter p).Pairwise sortLE := hsorted.filter p
  have h2 : (data.filter p).Pairwise (fun a b => a.sort ≠ b.sort) := huniq.filter p
  have h3 : (data.filter p).Pairwise (fun a b => a.sort < b.sort) :=
    (h1.and h2).imp (fun hab => lt_of_le_of_ne hab.1 hab.2)
  exact List.pairwise_map.mpr h3

theorem range_affine_lt (n : ℕ) (u JQ : ℚ) (hJQ : 0 < JQ) :
    ((List.range n).map (fun i : ℕ => u + JQ * ((i : ℚ) + 1))).Pairwise (· < ·) := by
  refine List.pairwise_map.mpr ((List.pairwise_lt_range n).imp ?_)
  intro a b hab
  have hc : (a : ℚ) < (b : ℚ) := by exact_mod_cast hab
  nlinarith

/-- C4 (amended): block reinsertion specification for group moves on a
sorted collection. -/
theorem computeNewSorts_group_reinsertion (data : List RowItem)
    (hsorted : SortedBySort data) (huniq : UniqueSorts data) (hpos : PosSorts data)
    (hsep : GroupsSeparated data) (gk : String) (overId : DragId) (aS oS : ℚ)
    (ha : getSortForId data (.group gk) false = some aS)
    (ho : getSortForId data overId false = some oS)
    (hne : aS ≠ oS) :
    (oS < aS →
      GroupMoveSpec data (computeNewSorts data (.group gk) overId) gk
        ((findPrevSort data oS).getD 0) oS) ∧
    (aS < oS → ∀ ov : ℚ, getSortForId data overId true = some ov →
      GroupMoveSpec data (computeNewSorts data (.group gk) overId) gk ov
        ((findNextSort data ov).getD
          (ov + ((data.filter (fun r => r.groupKey = gk)).length : ℚ) + 1))) := by
  constructor
  · intro hgt
    have hred := computeNewSorts_group_up ha ho hgt
    have hgap := gap_up (d := oS) hpos (getSortForId_mem ho)
    have hsb := group_step_bound (u := (findPrevSort data oS).getD 0) (d := oS)
      ((data.filter (fun r => r.groupKey = gk)).length) hgap.1
    have hbound : (oS - (findPrevSort data oS).getD 0) /
          (((data.filter (fun r => r.groupKey = gk)).length : ℚ) + 1) *
          (((1 : ℕ) : ℚ) + (data.countP (fun r => r.groupKey = gk) : ℚ))
        < oS - (findPrevSort data oS).getD 0 +
          (oS - (findPrevSort data oS).getD 0) /
          (((data.filter (fun r => r.groupKey = gk)).length : ℚ) + 1) := by
      rw [List.countP_eq_length_filter]
      push_cast
      push_cast at hsb
      exact hsb.2
    have haux := (updateGroupSortAux_unique gk _ _ oS hsb.1 data 1 (le_refl 1) hbound
      (fun r hr _ => hgap.2 r hr) huniq).2
    have hmap : ((computeNewSorts data (.group gk) overId).filter
          (fun r => r.groupKey = gk)).map (·.sort)
        = (List.range (data.filter (fun r => r.groupKey = gk)).length).map
            (fun i : Nat => (findPrevSort data oS).getD 0 +
              (oS - (findPrevSort data oS).getD 0) /
              (((data.filter (fun r => r.groupKey = gk)).length : ℚ) + 1) * ((i : ℚ) + 1)) := by
      rw [hred]
      unfold updateGroupSort
      rw [updateGroupSortAux_filter_map_sort, List.countP_eq_length_filter]
      apply List.map_congr_left
      intro i _
      push_cast
      ring
    unfold GroupMoveSpec
    refine ⟨hred, hmap, ?_, ?_, filter_sorts_strict data hsorted huniq _, ?_⟩
    · intro r hr hg
      rw [hred] at hr
      exact ⟨((haux r hr).1 hg).1, ((haux r hr).1 hg).2.1⟩
    · rw [hred]
      unfold updateGroupSort
      exact updateGroupSortAux_filter_map_key gk _ _ data 1
    · rw [hmap]
      exact range_affine_lt _ _ _ hsb.1
  · intro hlt ov hov
    have hred := computeNewSorts_group_down ha ho hlt hov
    have hd : ov < ov + ((data.filter (fun r => r.groupKey = gk)).length : ℚ) + 1 := by
      have h0 : (0 : ℚ) ≤ ((data.filter (fun r => r.groupKey = gk)).length : ℚ) :=
        Nat.cast_nonneg _
      linarith
    have hgap := gap_down (l := data) (u := ov)
      (d := ov + ((data.filter (fun r => r.groupKey = gk)).length : ℚ) + 1) hd
    have hsb := group_step_bound (u := ov)
      (d := (findNextSort data ov).getD
        (ov + ((data.filter (fun r => r.groupKey = gk)).length : ℚ) + 1))
      ((data.filter (fun r => r.groupKey = gk)).length) hgap.1
    have hbound : ((findNextSort data ov).getD
          (ov + ((data.filter (fun r => r.groupKey = gk)).length : ℚ) + 1) - ov) /
          (((data.filter (fun r => r.groupKey = gk)).length : ℚ) + 1) *
          (((1 : ℕ) : ℚ) + (data.countP (fun r => r.groupKey = gk) : ℚ))
        < (findNextSort data ov).getD
            (ov + ((data.filter (fun r => r.groupKey = gk)).length : ℚ) + 1) - ov +
          ((findNextSort data ov).getD
            (ov + ((data.filter (fun r => r.groupKey = gk)).length : ℚ) + 1) - ov) /
          (((data.filter (fun r => r.groupKey = gk)).length : ℚ) + 1) := by
      rw [List.countP_eq_length_filter]
      push_cast
      push_cast at hsb
      exact hsb.2
    have haux := (updateGroupSortAux_unique gk ov _ _ hsb.1 data 1 (le_refl 1) hbound
      (fun r hr _ => hgap.2 r hr) huniq).2
    have hmap : ((computeNewSorts data (.group gk) overId).filter
          (fun r => r.groupKey = gk)).map (·.sort)
        = (List.range (data.filter (fun r => r.groupKey = gk)).length).map
            (fun i : Nat => ov +
              ((findNextSort data ov).getD
                (ov + ((data.filter (fun r => r.groupKey = gk)).length : ℚ) + 1) - ov) /
              (((data.filter (fun r => r.groupKey = gk)).length : ℚ) + 1) * ((i : ℚ) + 1)) := by
      rw [hred]
      unfold updateGroupSort
      rw [updateGroupSortAux_filter_map_sort, List.countP_eq_length_filter]
      apply List.map_congr_left
      intro i _
      push_cast
      ring
    unfold GroupMoveSpec
    refine ⟨hred, hmap, ?_, ?_, filter_sorts_strict data hsorted huniq _, ?_⟩
    · intro r hr hg
      rw [hred] at hr
      exact ⟨((haux r hr).1 hg).1, ((haux r hr).1 hg).2.1⟩
    · rw [hred]
      unfold updateGroupSort
      exact updateGroupSortAux_filter_map_key gk _ _ data 1
    · rw [hmap]
      exact range_affine_lt _ _ _ hsb.1

/-- Witness for the amended C4: the seed up-move of group-B before group-A. -/
theorem computeNewSorts_group_reinsertion_witness :
    GroupMoveSpec initialData
      (computeNewSorts initialData (.group "group-B") (.group "group-A"))
      "group-B" ((findPrevSort initialData 1).getD 0) 1 :=
  (computeNewSorts_group_reinsertion initialData (by decide) (by decide) (by decide)
    (by decide) "group-B" (.group "group-A") 4 1 (by decide) (by decide)
    (by norm_num)).1 (by norm_num)

theorem mem_groupKeysAux (k : String) :
    ∀ (l : List RowItem) (acc : List String),
      k ∈ groupKeysAux l acc ↔ k ∈ acc ∨ ∃ r ∈ l, r.groupKey = k := by
  intro l
  induction l with
  | nil => intro acc; simp [groupKeysAux]
  | cons a l ih =>
    intro acc
    rw [groupKeysAux, ih]
    by_cases h : a.groupKey ∈ acc
    · rw [if_pos h]
      constructor
      · rintro (hk | ⟨r, hr, hrk⟩)
        · exact Or.inl hk
        · exact Or.inr ⟨r, List.mem_cons_of_mem a hr, hrk⟩
      · rintro (hk | ⟨r, hr, hrk⟩)
        · exact Or.inl hk
        · rcases List.mem_cons.mp hr with rfl | hr'
          · exact Or.inl (hrk ▸ h)
          · exact Or.inr ⟨r, hr', hrk⟩
    · rw [if_neg h]
      constructor
      · rintro (hk | ⟨r, hr, hrk⟩)
        · rcases List.mem_append.mp hk with hk' | hk'
          · exact Or.inl hk'
          · simp at hk'
            exact Or.inr ⟨a, List.mem_cons_self a l, hk'.symm⟩
        · exact Or.inr ⟨r, List.mem_cons_of_mem a hr, hrk⟩
      · rintro (hk | ⟨r, hr, hrk⟩)
        · exact Or.inl (List.mem_append.mpr (Or.inl hk))
        · rcases List.mem_cons.mp hr with rfl | hr'
          · exact Or.inl (List.mem_append.mpr (Or.inr (by simp [hrk])))
          · exact Or.inr ⟨r, hr', hrk⟩

theorem mem_groupKeys {data : List RowItem} {k : String} :
    k ∈ groupKeys data ↔ ∃ r ∈ data, r.groupKey = k := by
  unfold groupKeys
  rw [mem_groupKeysAux]
  simp

theorem nodup_groupKeysAux :
    ∀ (l : List RowItem) (acc : List String), acc.Nodup → (groupKeysAux l acc).Nodup := by
  intro l
  induction l with
  | nil => intro acc h; exact h
  | cons a l ih =>
    intro acc h
    rw [groupKeysAux]
    by_cases hm : a.groupKey ∈ acc
    · rw [if_pos hm]; exact ih acc h
    · rw [if_neg hm]
      refine ih _ ?_
      simp [List.nodup_append, h, hm]

theorem groupKeys_nodup (data : List RowItem) : (groupKeys data).Nodup :=
  nodup_groupKeysAux data [] List.nodup_nil

theorem stampGroupSizeAux_forall₂ (size : Nat) :
    ∀ (l : List RowItem) (idx : Nat),
      List.Forall₂ SameExceptGroupSize (stampGroupSizeAux size l idx) l := by
  intro l
  induction l with
  | nil => intro _; exact List.Forall₂.nil
  | cons a l ih =>
    intro idx
    rw [stampGroupSizeAux]
    exact List.forall₂_cons.mpr ⟨⟨rfl, rfl, rfl, rfl, rfl, rfl⟩, ih _⟩

theorem stampGroupSizeAux_pos (size : Nat) :
    ∀ (l : List RowItem) (idx : Nat), idx ≠ 0 →
      stampGroupSizeAux size l idx = l.map (fun r => { r with groupSize := some 0 }) := by
  intro l
  induction l with
  | nil => intro _ _; rfl
  | cons a l ih =>
    intro idx h
    rw [stampGroupSizeAux, if_neg h, List.map_cons, ih (idx + 1) (by omega)]

theorem stampGroupSizeAux_cons (size : Nat) (r : RowItem) (rest : List RowItem) :
    stampGroupSizeAux size (r :: rest) 0
      = { r with groupSize := some size } ::
          rest.map (fun x => { x with groupSize := some 0 }) := by
  rw [stampGroupSizeAux, if_pos rfl, stampGroupSizeAux_pos size rest 1 one_ne_zero]

theorem forall₂_mem_left {R : RowItem → RowItem → Prop} :
    ∀ {l' l : List RowItem}, List.Forall₂ R l' l → ∀ r' ∈ l', ∃ r ∈ l, R r' r := by
  intro l' l h
  induction h with
  | nil => intro r' hr'; simp at hr'
  | cons hab _ ih =>
    intro r' hr'
    rcases List.mem_cons.mp hr' with rfl | hr''
    · exact ⟨_, List.mem_cons_self _ _, hab⟩
    · rcases ih r' hr'' with ⟨r, hr, hR⟩
      exact ⟨r, List.mem_cons_of_mem _ hr, hR⟩

theorem filter_flatMap_groups (f : String → List RowItem)
    (hf : ∀ k, ∀ r ∈ f k, r.groupKey = k) (gk : String) :
    ∀ ks : List String, ks.Nodup →
      ((ks.flatMap f).filter (fun r => r.groupKey = gk))
        = if gk ∈ ks then f gk else [] := by
  intro ks
  induction ks with
  | nil => intro _; simp
  | cons k ks ih =>
    intro hnd
    rcases List.nodup_cons.mp hnd with ⟨hk, hnd'⟩
    rw [List.flatMap_cons, List.filter_append, ih hnd']
    by_cases he : gk = k
    · subst he
      rw [if_pos (List.mem_cons_self _ _), if_neg hk]
      rw [List.filter_eq_self.mpr (fun r hr => by simp [hf gk r hr]), List.append_nil]
    · have hz : (f k).filter (fun r => r.groupKey = gk) = [] := by
        refine List.filter_eq_nil_iff.mpr ?_
        intro r hr
        simp only [decide_eq_true_eq]
        intro hrg
        exact he (hrg.symm.trans (hf k r hr))
      rw [hz, List.nil_append]
      by_cases hm : gk ∈ ks
      · rw [if_pos hm, if_pos (List.mem_cons_of_mem k hm)]
      · rw [if_neg hm, if_neg (by simp [List.mem_cons, he, hm])]

theorem recomputeGroupSizes_eq_flatMap (data : List RowItem) :
    recomputeGroupSizes data
      = (groupKeys data).flatMap
          (fun k =>
            stampGroupSizeAux (sortBySort (data.filter (fun r => r.groupKey = k))).length
              (sortBySort (data.filter (fun r => r.groupKey = k))) 0) := by
  unfold recomputeGroupSizes buildGroups
  rw [List.flatMap_map]

theorem recomputeGroupSizes_filter_eq (data : List RowItem) {gk : String}
    (hgk : gk ∈ groupKeys data) :
    (recomputeGroupSizes data).filter (fun r => r.groupKey = gk)
      = stampGroupSizeAux (sortBySort (data.filter (fun r => r.groupKey = gk))).length
          (sortBySort (data.filter (fun r => r.groupKey = gk))) 0 := by
  rw [recomputeGroupSizes_eq_flatMap]
  have hf : ∀ k, ∀ r ∈ stampGroupSizeAux
        (sortBySort (data.filter (fun x => x.groupKey = k))).length
        (sortBySort (data.filter (fun x => x.groupKey = k))) 0,
      r.groupKey = k := by
    intro k r hr
    rcases forall₂_mem_left (stampGroupSizeAux_forall₂ _ _ 0) r hr with ⟨r0, hr0, hR⟩
    have : r0 ∈ data.filter (fun x => x.groupKey = k) := mem_sortBySort.mp hr0
    have hg := (List.mem_filter.mp this).2
    simp only [decide_eq_true_eq] at hg
    exact hR.2.1.trans hg
  rw [filter_flatMap_groups _ hf gk _ (groupKeys_nodup data), if_pos hgk]



/-- C8: `recomputeGroupSizes` rebuilds the header bookkeeping: it never
changes a row's key, groupKey, payload or order key, and in its output,
for every group present in the collection, the member with the smallest
order key carries `groupSize` equal to the group's (nonzero) cardinality,
occurs exactly once among the group's members, and every other member of
the group carries the sentinel `0`. -/
theorem recomputeGroupSizes_header (data : List RowItem) (huniq : UniqueSorts data) :
    (∀ r' ∈ recomputeGroupSizes data, ∃ r ∈ data, SameExceptGroupSize r' r) ∧
    ∀ gk : String, (∃ r ∈ data, r.groupKey = gk) →
      (data.filter (fun r => r.groupKey = gk)).length ≠ 0 ∧
      ∃ m ∈ recomputeGroupSizes data, m.groupKey = gk ∧
        m.groupSize = some ((data.filter (fun r => r.groupKey = gk)).length) ∧
        (∀ r ∈ data, r.groupKey = gk → m.sort ≤ r.sort) ∧
        (∀ r' ∈ recomputeGroupSizes data, r'.groupKey = gk → r' ≠ m →
          r'.groupSize = some 0) ∧
        ((recomputeGroupSizes data).filter (fun r => r.groupKey = gk)).count m = 1 := by
  constructor
  · intro r' hr'
    rw [recomputeGroupSizes_eq_flatMap] at hr'
    rcases List.mem_flatMap.mp hr' with ⟨k, _, hrk⟩
    rcases forall₂_mem_left (stampGroupSizeAux_forall₂ _ _ 0) r' hrk with ⟨r0, hr0, hR⟩
    exact ⟨r0, List.mem_of_mem_filter (mem_sortBySort.mp hr0), hR⟩
  · rintro gk ⟨w, hw, hwg⟩
    have hgk : gk ∈ groupKeys data := mem_groupKeys.mpr ⟨w, hw, hwg⟩
    have hwf : w ∈ data.filter (fun r => r.groupKey = gk) :=
      List.mem_filter.mpr ⟨hw, by simpa using hwg⟩
    have hne0 : (data.filter (fun r => r.groupKey = gk)).length ≠ 0 := by
      intro hz
      rw [List.length_eq_zero] at hz
      rw [hz] at hwf
      simp at hwf
    refine ⟨hne0, ?_⟩
    have hfil := recomputeGroupSizes_filter_eq data hgk
    cases hm : sortBySort (data.filter (fun r => r.groupKey = gk)) with
    | nil =>
      exfalso
      rw [sortBySort_eq_nil] at hm
      rw [hm] at hwf
      simp at hwf
    | cons m0 rest =>
      rw [hm, stampGroupSizeAux_cons] at hfil
      have hlen : (m0 :: rest).length = (data.filter (fun r => r.groupKey = gk)).length := by
        rw [← hm, length_sortBySort]
      rw [hlen] at hfil
      have hm0mem : m0 ∈ data.filter (fun r => r.groupKey = gk) := by
        apply mem_sortBySort.mp
        rw [hm]
        exact List.mem_cons_self _ _
      have hm0gk : m0.groupKey = gk := by
        have := (List.mem_filter.mp hm0mem).2
        simpa using this
      refine ⟨{ m0 with groupSize := some ((data.filter (fun r => r.groupKey = gk)).length) },
        ?_, hm0gk, rfl, ?_, ?_, ?_⟩
      · have hmem : { m0 with
            groupSize := some ((data.filter (fun r => r.groupKey = gk)).length) } ∈
            (recomputeGroupSizes data).filter (fun r => r.groupKey = gk) := by
          rw [hfil]
          exact List.mem_cons_self _ _
        exact List.mem_of_mem_filter hmem
      · intro r hr hrg
        have hmem : r ∈ sortBySort (data.filter (fun x => x.groupKey = gk)) :=
          mem_sortBySort.mpr (List.mem_filter.mpr ⟨hr, by simpa using hrg⟩)
        have h0 : m0.sort ≤ r.sort :=
          pairwise_head_le (sortBySort_pairwise _) (by rw [hm]; rfl) r hmem
        exact h0
      · intro r' hr' hg' hner'
        have hmem : r' ∈ (recomputeGroupSizes data).filter (fun r => r.groupKey = gk) :=
          List.mem_filter.mpr ⟨hr', by simpa using hg'⟩
        rw [hfil] at hmem
        rcases List.mem_cons.mp hmem with heq | hmem'
        · exact absurd heq hner'
        · rcases List.mem_map.mp hmem' with ⟨x, _, hx⟩
          rw [← hx]
      · rw [hfil, List.count_cons]
        have hzero : (rest.map (fun x => { x with groupSize := some 0 })).count
            { m0 with groupSize := some ((data.filter (fun r => r.groupKey = gk)).length) }
              = 0 := by
          rw [List.count_eq_zero]
          intro hmem
          rcases List.mem_map.mp hmem with ⟨x, _, hx⟩
          have hgs := congrArg RowItem.groupSize hx
          simp only [Option.some.injEq] at hgs
          exact hne0 hgs.symm
        rw [hzero]
        simp

/-- Witness for C8: the recomputed seed row `1-2` (whose `groupSize` was
stamped to the sentinel `0`) agrees with a seed row on every field except
the bookkeeping field. -/
theorem recomputeGroupSizes_header_witness :
    ∃ r ∈ initialData,
      SameExceptGroupSize ⟨"1-2", "group-A", some 0, "A", "产品 A2", 20, 2⟩ r :=
  (recomputeGroupSizes_header initialData (by decide)).1
    ⟨"1-2", "group-A", some 0, "A", "产品 A2", 20, 2⟩ (by decide)

end GroupDragTable
